import Mathlib

/-!
Shallow embedding of `pycrate_asn1rt/asn1fuzz.py` (class `Asn1Container`).

Modelling conventions:
* Python's ambient `random` module is modelled by an explicit stream of
  entropy (`List Nat`); each primitive draw consumes the head of the stream
  (`List.headI`, defaulting to 0 on an exhausted stream) and the library
  functions `randrange`/`choice`/`randbytes` map that raw draw into their
  documented result range.  Universal quantification over the stream covers
  every possible random outcome.
* Python exceptions (`ValueError` from `random.randrange` on an empty range,
  `AttributeError`/`TypeError` from calling list/dict operations on the wrong
  kind of `nested` payload, the explicit `raise` for EXPANDABLE) are modelled
  with `Except String`.
* The `nested` attribute is kind-dependent in the source (a dict of child
  containers, a single child container, a list of labels/named bits, a
  lazily-constructible factory object, or `None`); `Nested` is the
  corresponding sum.  Python dict iteration order is insertion order, so the
  dict is an ordered association list (`Fields`).  A Python dict can never
  hold two equal keys; theorems about key-based selection assume key
  `Nodup` where the behaviour would otherwise be ambiguous.
* In-place mutation of a container (`self.fully_covered = ...`,
  `self.range = ...`) is modelled by returning the updated container;
  `fuzz` only ever assigns those two attributes, so every other attribute is
  rebuilt unchanged, exactly as in the source.
* The schema layer's `get_proto` factories (external to this file's source)
  are an opaque parameter `gp : Nat → H → Asn1Container × H` threaded through
  `expand_once` together with the mutable `ident_history` dictionary `H`.
* Constraint tuples `(min,)`, `(min, max)` and `(min, max, step)` are all
  represented as `Int × Option Int × Option Int`; the source only ever reads
  the components it reads, and only the 3-tuple shape is read at position 2.
-/

namespace Asn1Fuzz

/-- The range/constraint payload: `(min, max or None, step or None)`. -/
abbrev RangeT := Int × Option Int × Option Int

/-- The heterogeneous values produced by `Asn1Container.fuzz`:
Python ints, bools, strings, byte strings, the `(value, length)` pairs of
BIT STRING, field-name→value dicts (SEQUENCE), `(selected key, value)` pairs
(CHOICE, where the inner value may be Python `None`), and elewent lists
(SEQUENCE OF, whose elements may be Python `None`). -/
inductive Value where
  | vint (i : Int)
  | vbool (b : Bool)
  | vstr (s : String)
  | vbytes (bs : List Nat)
  | vtup (a : Int) (b : Option Int)
  | vmap (fs : List (String × Value))
  | vchoice (k : String) (v : Option Value)
  | vlist (vs : List (Option Value))

mutual
/-- One node of the ASN.1 container tree (`Asn1Container.__init__`).
`sequence_member_count` is stored by the constructor but never read by any
method in the source, so it is omitted from the embedding. -/
inductive Asn1Container where
  | mk (unique_ident : String) (asn1_type : String) (optional : Bool)
       (nested : Nested) (range : Option RangeT) (fully_covered : Bool)

/-- The kind-dependent `nested` attribute. -/
inductive Nested where
  | nnone
  | nmap (fields : Fields)
  | nsingle (c : Asn1Container)
  | nlabels (ls : List String)
  | nfactory (fid : Nat)

/-- An insertion-ordered field dictionary (Python `dict` of child nodes). -/
inductive Fields where
  | fnil
  | fcons (key : String) (value : Asn1Container) (rest : Fields)
end

def Asn1Container.unique_ident : Asn1Container → String
  | .mk u _ _ _ _ _ => u

def Asn1Container.asn1_type : Asn1Container → String
  | .mk _ t _ _ _ _ => t

def Asn1Container.optional : Asn1Container → Bool
  | .mk _ _ o _ _ _ => o

def Asn1Container.nested : Asn1Container → Nested
  | .mk _ _ _ n _ _ => n

def Asn1Container.range : Asn1Container → Option RangeT
  | .mk _ _ _ _ r _ => r

def Asn1Container.fully_covered : Asn1Container → Bool
  | .mk _ _ _ _ _ c => c

/-! ### Field-dictionary operations -/

def Fields.toList : Fields → List (String × Asn1Container)
  | .fnil => []
  | .fcons k v rest => (k, v) :: rest.toList

def Fields.length : Fields → Nat
  | .fnil => 0
  | .fcons _ _ rest => rest.length + 1

/-- The key list, as produced by `list(d.keys())`. -/
def Fields.keys : Fields → List String
  | .fnil => []
  | .fcons k _ rest => k :: rest.keys

/-- `dict(filter(lambda x: not x[1].fully_covered, d.items()))`. -/
def Fields.filterUncovered : Fields → Fields
  | .fnil => .fnil
  | .fcons k v rest =>
    if v.fully_covered then rest.filterUncovered
    else .fcons k v rest.filterUncovered

/-- Python dict lookup `d[key]` (first matching key). -/
def Fields.lookup : Fields → String → Option Asn1Container
  | .fnil, _ => none
  | .fcons k v rest, key => if k = key then some v else rest.lookup key

/-- Replace the value stored under the first occurrence of `key`; models the
in-place mutation of the child object obtained from `d[key]`. -/
def Fields.updateKey : Fields → String → Asn1Container → Fields
  | .fnil, _, _ => .fnil
  | .fcons k v rest, key, nv =>
    if k = key then .fcons k nv rest else .fcons k v (rest.updateKey key nv)

/-- Replace the value at position `i`. -/
def Fields.updateAt : Fields → Nat → Asn1Container → Fields
  | .fnil, _, _ => .fnil
  | .fcons k _ rest, 0, nv => .fcons k nv rest
  | .fcons k v rest, i + 1, nv => .fcons k v (rest.updateAt i nv)

/-- Conjunction of the `fully_covered` flags of all values (the loop at the
end of `fuzz` that recomputes the flag of a composite node). -/
def Fields.allCovered : Fields → Bool
  | .fnil => true
  | .fcons _ v rest => v.fully_covered && rest.allCovered

/-- The first field (position, key, value) whose `unique_ident` lies in the
allowlist: the `for ... if value.unique_ident in allowlist: ... break` loop
of the CHOICE arm. -/
def Fields.firstAllowed : Fields → List String → Option (Nat × String × Asn1Container)
  | .fnil, _ => none
  | .fcons k v rest, alist =>
    if v.unique_ident ∈ alist then some (0, k, v)
    else (rest.firstAllowed alist).map (fun p => (p.1 + 1, p.2.1, p.2.2))

/-- How many fields have their `unique_ident` in the allowlist. -/
def Fields.countAllowed : Fields → List String → Nat
  | .fnil, _ => 0
  | .fcons _ v rest, alist =>
    (if v.unique_ident ∈ alist then 1 else 0) + rest.countAllowed alist

/-! ### The random primitives (Python `random` module, explicit stream) -/

/-- `random.randrange(a, b, s)` for a positive step `s`: the number of
admissible values is `⌈(b-a)/s⌉` (CPython computes `(b-a+s-1)//s` with floor
division) and a draw picks one of them.  The source only ever passes step
values taken from a constraint tuple (or the default 1), so non-positive
steps are modelled as the error CPython raises for step 0. -/
def randrangeStep (a b s : Int) (rng : List Nat) : Except String (Int × List Nat) :=
  if s ≤ 0 then .error "zero step for randrange"
  else
    let n := (b - a + s - 1).fdiv s
    if n ≤ 0 then .error "empty range for randrange"
    else .ok (a + s * ((rng.headI : Int) % n), rng.tail)

/-- `random.randrange(a, b)` (step 1). -/
def randrange (a b : Int) (rng : List Nat) : Except String (Int × List Nat) :=
  randrangeStep a b 1 rng

/-- `Asn1Container.better_randrange(start, stop, step)`: returns `start`
outright when `start == stop`, consuming no randomness. -/
def better_randrange (a b s : Int) (rng : List Nat) : Except String (Int × List Nat) :=
  if a = b then .ok (a, rng) else randrangeStep a b s rng

/-- `random.choice(seq)`: uniform element of a non-empty sequence. -/
def pychoice {α : Type} : List α → List Nat → Except String (α × List Nat)
  | [], _ => .error "Cannot choose from an empty sequence"
  | x :: xs, rng => .ok ((x :: xs).getD (rng.headI % (xs.length + 1)) x, rng.tail)

/-- `random.randbytes(n)` content: one stream draw per byte. -/
def randbytesList : Nat → List Nat → List Nat × List Nat
  | 0, rng => ([], rng)
  | n + 1, rng =>
    let b := rng.headI % 256
    let (bs, rng') := randbytesList n rng.tail
    (b :: bs, rng')

/-- `random.randbytes(k)`: raises on a negative count. -/
def randbytes (k : Int) (rng : List Nat) : Except String (List Nat × List Nat) :=
  if k < 0 then .error "negative count for randbytes"
  else .ok (randbytesList k.toNat rng)

/-- `string.ascii_uppercase + string.digits`. -/
def asciiChars : List Char := "ABCDEFGHIJKLMNOPQRSTUVWXYZ0123456789".toList

def asciiStringAux : Nat → List Nat → List Char × List Nat
  | 0, rng => ([], rng)
  | n + 1, rng =>
    let c := asciiChars.getD (rng.headI % 36) 'A'
    let (cs, rng') := asciiStringAux n rng.tail
    (c :: cs, rng')

/-- `Asn1Container.generate_random_ascii_string(length)`; a negative length
gives the empty string (Python `range` of a negative number is empty). -/
def generate_random_ascii_string (k : Int) (rng : List Nat) : String × List Nat :=
  let (cs, rng') := asciiStringAux k.toNat rng
  (String.mk cs, rng')

def numStringAux : Nat → List Nat → List Char × List Nat
  | 0, rng => ([], rng)
  | n + 1, rng =>
    let d := rng.headI % 9
    let (cs, rng') := numStringAux n rng.tail
    (Char.ofNat (48 + d) :: cs, rng')

/-- `Asn1Container.generate_random_number(length)`: digits drawn by
`random.randrange(0, 9)` (so `9` itself is never produced). -/
def generate_random_number (k : Int) (rng : List Nat) : String × List Nat :=
  let (cs, rng') := numStringAux k.toNat rng
  (String.mk cs, rng')

/-! ### The per-kind arms of `fuzz` that do not recurse into children -/

/-- The INTEGER arm of `fuzz`. -/
def fuzzInteger (rg : Option RangeT) (rng : List Nat) : Except String (Int × List Nat) :=
  match rg with
  | none => randrange 0 128 rng
  | some (m, none, _) => randrange m 128 rng
  | some (m, some M, _) => if m = M then .ok (m, rng) else randrange m M rng

/-- The OCTET STRING arm: a random length (per the same range policy, via
`better_randrange` for constrained ranges) followed by that many bytes. -/
def fuzzOctet (rg : Option RangeT) (rng : List Nat) : Except String (List Nat × List Nat) :=
  match rg with
  | none => do
      let (len, r) ← randrange 0 128 rng
      randbytes len r
  | some (m, none, _) => do
      let (len, r) ← better_randrange m 128 1 rng
      randbytes len r
  | some (m, some M, _) => do
      let (len, r) ← better_randrange m M 1 rng
      randbytes len r

/-- Python `len(...)` on a `nested` payload: lists and dicts have a length,
anything else raises. -/
def nestedLen : Nested → Except String Nat
  | .nlabels ls => .ok ls.length
  | .nmap fs => .ok fs.length
  | _ => .error "object has no len"

/-- The BIT STRING arm.  With both a named-bit list and a range, the value is
drawn below `2^bits - 1` and paired with `range[1]`; with only a range, drawn
by `better_randrange(range[0], range[1])` and paired with `range[2]` (a
`None` stop raises, as in Python); with only named bits, paired with 8;
with neither, the arm produces Python `None`. -/
def fuzzBitString (nst : Nested) (rg : Option RangeT) (rng : List Nat) :
    Except String (Option Value × List Nat) :=
  match nst, rg with
  | .nnone, none => .ok (none, rng)
  | .nnone, some (m, optM, s2) =>
      match optM with
      | some M => do
          let (v, r) ← better_randrange m M 1 rng
          .ok (some (.vtup v s2), r)
      | none => .error "randrange stop of NoneType"
  | nst', some (_, optM, _) => do
      let L ← nestedLen nst'
      let (v, r) ← better_randrange 0 (2 ^ L - 1) 1 rng
      .ok (some (.vtup v optM), r)
  | nst', none => do
      let L ← nestedLen nst'
      let (v, r) ← better_randrange 0 (2 ^ L - 1) 1 rng
      .ok (some (.vtup v (some 8)), r)

/-- The IA5String/UTF8String arm: fixed length 128 when unconstrained, the
exact length when `range[0] == range[1]`, else a `randrange` draw (raising
when `range[1]` is `None`, exactly as `random.randrange(m, None)` does). -/
def fuzzIA5 (rg : Option RangeT) (rng : List Nat) : Except String (String × List Nat) :=
  match rg with
  | none => .ok (generate_random_ascii_string 128 rng)
  | some (m, optM, _) =>
      if some m = optM then .ok (generate_random_ascii_string m rng)
      else
        match optM with
        | some M => do
            let (len, r) ← randrange m M rng
            .ok (generate_random_ascii_string len r)
        | none => .error "randrange stop of NoneType"

/-- The NumericString arm. -/
def fuzzNumeric (rg : Option RangeT) (rng : List Nat) : Except String (String × List Nat) :=
  match rg with
  | none => do
      let (len, r) ← randrange 0 256 rng
      .ok (generate_random_number len r)
  | some (m, optM, _) =>
      match optM with
      | some M => do
          let (len, r) ← better_randrange m M 1 rng
          .ok (generate_random_number len r)
      | none => .error "randrange stop of NoneType"

/-- The ENUMERATED arm: `random.choice(self.nested)` over the label list. -/
def fuzzEnumerated (nst : Nested) (rng : List Nat) : Except String (String × List Nat) :=
  match nst with
  | .nlabels ls => pychoice ls rng
  | _ => .error "choice on a non-sequence"

/-- The second `match` at the end of `fuzz`: recompute `fully_covered`
bottom-up (SEQUENCE OF copies the element child's flag; CHOICE-like and
SEQUENCE nodes take the conjunction over all children; every other kind is
marked covered). -/
def coverUpdate : Asn1Container → Except String Asn1Container
  | .mk u ty opt nst rg _ =>
    match ty with
    | "SEQUENCE OF" =>
      match nst with
      | .nsingle ch => .ok (.mk u ty opt nst rg ch.fully_covered)
      | _ => .error "AttributeError"
    | "CHOICE" | "OPEN_TYPE" | "ANY" | "SEQUENCE" =>
      match nst with
      | .nmap fs => .ok (.mk u ty opt nst rg fs.allCovered)
      | _ => .error "AttributeError"
    | _ => .ok (.mk u ty opt nst rg true)

/-- The skip decision at the top of the SEQUENCE field loop: with an
allowlist, a field is skipped exactly when its identity is not allowlisted
(no randomness); otherwise an optional field flips a fair coin and is
skipped when the coin says so and `(not coverage_aware or
self.fully_covered)` holds.  The coin is consumed whenever the field is
optional, mirroring Python's left-to-right short-circuit evaluation. -/
def decideSkip (al : Option (List String)) (ca : Bool) (parentCovered : Bool)
    (value : Asn1Container) (rng : List Nat) : Except String (Bool × List Nat) :=
  match al with
  | some alist => .ok (decide (value.unique_ident ∉ alist), rng)
  | none =>
    if value.optional then do
      let (b, r0) ← pychoice [true, false] rng
      .ok (b && (!ca || parentCovered), r0)
    else .ok (false, rng)

/-- The SEQUENCE field loop of `fuzz`, parametrised by the child fuzzer `F`
(the recursive call, one fuel level down).  Skipped fields stay untouched;
fuzzed fields are replaced by their updated (in-place mutated) selves, and
contribute to the result dict only when the child returned a non-`None`
value. -/
def fuzzFieldsGo
    (F : Asn1Container → List Nat → Except String (Option Value × Asn1Container × List Nat))
    (al : Option (List String)) (ca : Bool) (parentCovered : Bool) :
    Fields → List Nat → Except String (List (String × Value) × Fields × List Nat)
  | .fnil, rng => .ok ([], .fnil, rng)
  | .fcons key value rest, rng => do
    let (skip, r0) ← decideSkip al ca parentCovered value rng
    if skip then do
      let (m, rest', r') ← fuzzFieldsGo F al ca parentCovered rest r0
      .ok (m, .fcons key value rest', r')
    else do
      let (v, value', r1) ← F value r0
      let (m, rest', r') ← fuzzFieldsGo F al ca parentCovered rest r1
      match v with
      | some u => .ok ((key, u) :: m, .fcons key value' rest', r')
      | none => .ok (m, .fcons key value' rest', r')

/-- The SEQUENCE OF element loop:
`for _ in range(n): ret.append(self.nested.fuzz(...))`, where the single
shared element child mutates in place across iterations. -/
def fuzzElemsGo
    (F : Asn1Container → List Nat → Except String (Option Value × Asn1Container × List Nat)) :
    Asn1Container → Nat → List Nat → Except String (List (Option Value) × Asn1Container × List Nat)
  | ch, 0, rng => .ok ([], ch, rng)
  | ch, n + 1, rng => do
    let (v, ch', r) ← F ch rng
    let (vs, ch'', r') ← fuzzElemsGo F ch' n r
    .ok (v :: vs, ch'', r')

/-- SEQUENCE OF element-count resolution.  Returns the drawn count together
with the (possibly updated) `range`: for an uncovered open-ended range with
min 0 the source mutates `self.range` in place to raise the minimum to 1
("Force at least one"). -/
def seqOfCount (rg : Option RangeT) (cov : Bool) (msc : Int) (rng : List Nat) :
    Except String (Int × Option RangeT × List Nat) :=
  match rg with
  | none =>
      if msc ≠ 1 then do
        let (n, r) ← randrange 1 msc rng
        .ok (n, none, r)
      else .ok (1, none, rng)
  | some (m, none, s) =>
      let m' := if cov = false ∧ m = 0 then 1 else m
      let rg' : Option RangeT := some (m', none, s)
      let maxValue := max m' msc
      if m' ≠ maxValue then do
        let (n, r) ← randrange m' maxValue rng
        .ok (n, rg', r)
      else .ok (maxValue, rg', rng)
  | some (m, some M, s) =>
      let steps := s.getD 1
      let max_capped := max (m + steps) msc
      let min_value := if m = 0 ∧ cov = false then max_capped else m
      do
        let (n, r) ← better_randrange min_value (min M max_capped) steps rng
        .ok (n, some (m, some M, s), r)

/-- Key selection for CHOICE-like nodes without an allowlist:
`random.choice(possible_choices)` when there is more than one candidate,
else `possible_choices[0]` without consuming randomness (an empty candidate
list raises IndexError). -/
def choiceSelect (possible : List String) (rng : List Nat) : Except String (String × List Nat) :=
  if possible.length > 1 then pychoice possible rng
  else
    match possible with
    | [] => .error "list index out of range"
    | k :: _ => .ok (k, rng)

/-- Shallow embedding of `Asn1Container.fuzz`.  The Python method recurses on
the object graph; here the recursion is driven by a fuel argument that the
wrapper `fuzz` below instantiates with the tree depth: the source descends
exactly one child level per recursive call and never changes the tree's
shape, so the depth bounds the recursion.  Running out of fuel is an
artificial error that no theorem below treats as source behaviour. -/
def fuzzF (al bl : Option (List String)) (ca : Bool) (msc : Int) :
    Nat → Asn1Container → List Nat → Except String (Option Value × Asn1Container × List Nat)
  | 0, _, _ => .error "out of fuel"
  | f + 1, .mk uid ty opt nst rg cov, rng =>
    match ty with
    | "INTEGER" => do
        let (v, r) ← fuzzInteger rg rng
        let c' ← coverUpdate (.mk uid ty opt nst rg cov)
        .ok (some (.vint v), c', r)
    | "ENUMERATED" => do
        let (v, r) ← fuzzEnumerated nst rng
        let c' ← coverUpdate (.mk uid ty opt nst rg cov)
        .ok (some (.vstr v), c', r)
    | "BOOLEAN" => do
        let (b, r) ← pychoice [true, false] rng
        let c' ← coverUpdate (.mk uid ty opt nst rg cov)
        .ok (some (.vbool b), c', r)
    | "OCTET STRING" => do
        let (bs, r) ← fuzzOctet rg rng
        let c' ← coverUpdate (.mk uid ty opt nst rg cov)
        .ok (some (.vbytes bs), c', r)
    | "BIT STRING" => do
        let (v, r) ← fuzzBitString nst rg rng
        let c' ← coverUpdate (.mk uid ty opt nst rg cov)
        .ok (v, c', r)
    | "IA5String" | "UTF8String" => do
        let (s, r) ← fuzzIA5 rg rng
        let c' ← coverUpdate (.mk uid ty opt nst rg cov)
        .ok (some (.vstr s), c', r)
    | "NumericString" => do
        let (s, r) ← fuzzNumeric rg rng
        let c' ← coverUpdate (.mk uid ty opt nst rg cov)
        .ok (some (.vstr s), c', r)
    | "NULL" => do
        let c' ← coverUpdate (.mk uid ty opt nst rg cov)
        .ok (some (.vint 0), c', rng)
    | "EXPANDABLE" => .error "Please remove EXPANDABLEs bevore fuzzing!"
    | "SEQUENCE" =>
      match nst with
      | .nmap fs => do
          let (m, fs', r) ← fuzzFieldsGo (fuzzF al bl ca msc f) al ca cov fs rng
          let c' ← coverUpdate (.mk uid ty opt (.nmap fs') rg cov)
          .ok (some (.vmap m), c', r)
      | _ => .error "AttributeError"
    | "CHOICE" | "OPEN_TYPE" | "ANY" =>
      match nst with
      | .nmap fs =>
        let nested_filtered :=
          if ca then
            let filtered := fs.filterUncovered
            if filtered.length > 0 then filtered else fs
          else fs
        match al with
        | some alist =>
          match fs.firstAllowed alist with
          | some (i, key, value) => do
              let (v, value', r) ← fuzzF al bl ca msc f value rng
              let c' ← coverUpdate (.mk uid ty opt (.nmap (fs.updateAt i value')) rg cov)
              .ok (some (.vchoice key v), c', r)
          | none => do
              let c' ← coverUpdate (.mk uid ty opt (.nmap fs) rg cov)
              .ok (none, c', rng)
        | none => do
          let (selectedKey, r0) ← choiceSelect nested_filtered.keys rng
          match fs.lookup selectedKey with
          | some value => do
              let (v, value', r) ← fuzzF al bl ca msc f value r0
              let c' ← coverUpdate (.mk uid ty opt (.nmap (fs.updateKey selectedKey value')) rg cov)
              .ok (some (.vchoice selectedKey v), c', r)
          | none => .error "KeyError"
      | _ => .error "AttributeError"
    | "SEQUENCE OF" => do
        let (count, rg', r0) ← seqOfCount rg cov msc rng
        match nst with
        | .nsingle ch => do
            let (vs, ch', r) ← fuzzElemsGo (fuzzF al bl ca msc f) ch count.toNat r0
            let c' ← coverUpdate (.mk uid ty opt (.nsingle ch') rg' cov)
            .ok (some (.vlist vs), c', r)
        | _ => .error "AttributeError"
    | _ => do
        let c' ← coverUpdate (.mk uid ty opt nst rg cov)
        .ok (none, c', rng)

mutual
/-- Number of levels of the container tree (used as fuel for `fuzz`). -/
def depth : Asn1Container → Nat
  | .mk _ _ _ nst _ _ => ndepth nst + 1

def ndepth : Nested → Nat
  | .nnone => 0
  | .nlabels _ => 0
  | .nfactory _ => 0
  | .nsingle c => depth c
  | .nmap fs => fdepth fs

def fdepth : Fields → Nat
  | .fnil => 0
  | .fcons _ v rest => max (depth v) (fdepth rest)
end

/-- `Asn1Container.fuzz(allowlist, blocklist, coverage_aware,
max_seq_of_count)`. -/
def fuzz (c : Asn1Container) (allowlist blocklist : Option (List String))
    (coverage_aware : Bool) (max_seq_of_count : Int) (rng : List Nat) :
    Except String (Option Value × Asn1Container × List Nat) :=
  fuzzF allowlist blocklist coverage_aware max_seq_of_count (depth c) c rng

/-- `Asn1Container.reset_coverage`: clears only this node's flag (the source
carries a `TODO: Nested reset`). -/
def reset_coverage : Asn1Container → Asn1Container
  | .mk u t o nst rg _ => .mk u t o nst rg false

/-! ### `expand_once` -/

mutual
/-- `Asn1Container.expand_once(ident_history)`.  `gp` models the schema
layer's `get_proto` factories (external to this source file: an EXPANDABLE
node's `nested` holds an opaque factory object, here a `Nat` key into `gp`);
`H` is the opaque mutable `ident_history` dictionary, threaded through every
factory call in pass order.  Only CHOICE/OPEN_TYPE/ANY/SEQUENCE nodes are
traversed; every other kind (SEQUENCE OF included) falls through the `match`
and is returned unchanged, exactly as in the source. -/
def expand_once {H : Type} (gp : Nat → H → Asn1Container × H) :
    Asn1Container → H → Except String (Asn1Container × H)
  | .mk u ty opt nst rg cov, h =>
    match ty with
    | "CHOICE" | "OPEN_TYPE" | "ANY" | "SEQUENCE" =>
      match nst with
      | .nmap fs => do
          let (fs', h') ← expandFields gp fs h
          .ok (.mk u ty opt (.nmap fs') rg cov, h')
      | _ => .error "AttributeError"
    | _ => .ok (.mk u ty opt nst rg cov, h)

/-- The child loop of `expand_once`: an EXPANDABLE child with a non-`None`
factory is replaced by `child.nested.get_proto(ident_history)`; every other
child is recursively expanded (an EXPANDABLE child with `nested is None`
recurses and comes back unchanged); an EXPANDABLE child whose `nested` is a
list/dict/container raises (`get_proto` does not exist on those). -/
def expandFields {H : Type} (gp : Nat → H → Asn1Container × H) :
    Fields → H → Except String (Fields × H)
  | .fnil, h => .ok (.fnil, h)
  | .fcons k v rest, h =>
    if v.asn1_type = "EXPANDABLE" then
      match v.nested with
      | .nnone => do
          let (v', h') ← expand_once gp v h
          let (rest', h'') ← expandFields gp rest h'
          .ok (.fcons k v' rest', h'')
      | .nfactory fid => do
          let (nv, h') := gp fid h
          let (rest', h'') ← expandFields gp rest h'
          .ok (.fcons k nv rest', h'')
      | _ => .error "object has no get_proto"
    else do
      let (v', h') ← expand_once gp v h
      let (rest', h'') ← expandFields gp rest h'
      .ok (.fcons k v' rest', h'')
end

mutual
/-- Claim-level description of one `expand_once` pass (spec wording, to be
compared with the source-translated `expand_once`): a node of a kind other
than CHOICE/OPEN_TYPE/ANY/SEQUENCE is returned entirely unchanged with the
history untouched; a CHOICE/OPEN_TYPE/ANY/SEQUENCE node keeps its identity,
kind, optionality, range and flag, and has its field map rewritten child by
child in pass order as described by `ExpandedSpecF`. -/
inductive ExpandedSpec {H : Type} (gp : Nat → H → Asn1Container × H) :
    Asn1Container → H → Asn1Container → H → Prop
  | other (u ty : String) (opt : Bool) (nst : Nested) (rg : Option RangeT) (cov : Bool)
      (h : H) :
      ty ≠ "CHOICE" → ty ≠ "OPEN_TYPE" → ty ≠ "ANY" → ty ≠ "SEQUENCE" →
      ExpandedSpec gp (.mk u ty opt nst rg cov) h (.mk u ty opt nst rg cov) h
  | composite (u ty : String) (opt : Bool) (fs fs2 : Fields) (rg : Option RangeT)
      (cov : Bool) (h h2 : H) :
      (ty = "CHOICE" ∨ ty = "OPEN_TYPE" ∨ ty = "ANY" ∨ ty = "SEQUENCE") →
      ExpandedSpecF gp fs h fs2 h2 →
      ExpandedSpec gp (.mk u ty opt (.nmap fs) rg cov) h (.mk u ty opt (.nmap fs2) rg cov) h2

/-- Child-loop half of `ExpandedSpec`: every direct EXPANDABLE child with a
live factory is replaced, at its position and under its key, by the factory's
freshly constructed subtree, with the history threaded through the factory
calls in pass order; every other child is expanded recursively (one level);
no child is added, dropped or reordered. -/
inductive ExpandedSpecF {H : Type} (gp : Nat → H → Asn1Container × H) :
    Fields → H → Fields → H → Prop
  | nil (h : H) : ExpandedSpecF gp .fnil h .fnil h
  | factory (k : String) (v : Asn1Container) (rest rest2 : Fields) (fid : Nat) (h h2 : H) :
      v.asn1_type = "EXPANDABLE" → v.nested = .nfactory fid →
      ExpandedSpecF gp rest (gp fid h).2 rest2 h2 →
      ExpandedSpecF gp (.fcons k v rest) h (.fcons k (gp fid h).1 rest2) h2
  | child (k : String) (v v2 : Asn1Container) (rest rest2 : Fields) (h h1 h2 : H) :
      ¬(v.asn1_type = "EXPANDABLE" ∧ ∃ fid : Nat, v.nested = .nfactory fid) →
      ExpandedSpec gp v h v2 h1 →
      ExpandedSpecF gp rest h1 rest2 h2 →
      ExpandedSpecF gp (.fcons k v rest) h (.fcons k v2 rest2) h2
end

/-! ### `remove_expandable` -/

mutual
/-- `Asn1Container.remove_expandable`: returns the success flag and the
pruned tree.  A bare EXPANDABLE reports failure; CHOICE-like nodes drop
failing children; SEQUENCE drops failing optional children and keeps (but
reports) failing mandatory ones; SEQUENCE OF delegates to its element child,
with `nested is None` reported as failure (the source's "Dirty hack for
IVIM"); any other `nested` payload under SEQUENCE OF raises
(`remove_expandable` does not exist on lists/dicts). -/
def remove_expandable : Asn1Container → Except String (Bool × Asn1Container)
  | .mk u ty opt nst rg cov =>
    match ty with
    | "EXPANDABLE" => .ok (false, .mk u ty opt nst rg cov)
    | "CHOICE" | "OPEN_TYPE" | "ANY" =>
      match nst with
      | .nmap fs => do
          let fs' ← removeFieldsChoice fs
          .ok (true, .mk u ty opt (.nmap fs') rg cov)
      | _ => .error "AttributeError"
    | "SEQUENCE" =>
      match nst with
      | .nmap fs => do
          let (b, fs') ← removeFieldsSeq fs
          .ok (b, .mk u ty opt (.nmap fs') rg cov)
      | _ => .error "AttributeError"
    | "SEQUENCE OF" =>
      match nst with
      | .nnone => .ok (false, .mk u ty opt nst rg cov)
      | .nsingle ch => do
          let (b, ch') ← remove_expandable ch
          .ok (b, .mk u ty opt (.nsingle ch') rg cov)
      | _ => .error "AttributeError"
    | _ => .ok (true, .mk u ty opt nst rg cov)

/-- The CHOICE/OPEN_TYPE/ANY child loop: children whose pruning fails are
dropped; the parent always succeeds. -/
def removeFieldsChoice : Fields → Except String Fields
  | .fnil => .ok .fnil
  | .fcons k v rest => do
      let (b, v') ← remove_expandable v
      let rest' ← removeFieldsChoice rest
      if b then .ok (.fcons k v' rest') else .ok rest'

/-- The SEQUENCE child loop: a failing optional child is dropped; a failing
mandatory child is kept and makes the parent fail; pruning continues over
the remaining siblings either way. -/
def removeFieldsSeq : Fields → Except String (Bool × Fields)
  | .fnil => .ok (true, .fnil)
  | .fcons k v rest => do
      let (b, v') ← remove_expandable v
      let (bs, rest') ← removeFieldsSeq rest
      if b then .ok (bs, .fcons k v' rest')
      else if v'.optional then .ok (bs, rest')
      else .ok (false, .fcons k v' rest')
end

/-! ### Relations and invariants used by the theorems -/

/-- The only range mutation `fuzz` ever performs: an open-ended SEQUENCE OF
range `(0, None, s)` is replaced in place by `(1, None, s)`. -/
def rangeBumped : Option RangeT → Option RangeT → Bool
  | some (m1, M1, s1), some (m2, M2, s2) =>
      decide (m1 = 0) && decide (M1 = none) && decide (m2 = 1) && decide (M2 = none) &&
        decide (s1 = s2)
  | _, _ => false

mutual
/-- Frame relation for one `fuzz` call: identity, kind, optionality and the
whole child structure are preserved; each node's range is preserved too,
except that a SEQUENCE OF node may have had its open-ended minimum bumped
from 0 to 1.  The `fully_covered` flags are unconstrained. -/
def frameOK : Asn1Container → Asn1Container → Bool
  | .mk u1 t1 o1 n1 r1 _, .mk u2 t2 o2 n2 r2 _ =>
    decide (u1 = u2) && decide (t1 = t2) && decide (o1 = o2) && frameOKN n1 n2 &&
      (decide (r1 = r2) || (decide (t1 = "SEQUENCE OF") && rangeBumped r1 r2))

def frameOKN : Nested → Nested → Bool
  | .nnone, .nnone => true
  | .nmap f1, .nmap f2 => frameOKF f1 f2
  | .nsingle a, .nsingle b => frameOK a b
  | .nlabels a, .nlabels b => decide (a = b)
  | .nfactory a, .nfactory b => decide (a = b)
  | _, _ => false

def frameOKF : Fields → Fields → Bool
  | .fnil, .fnil => true
  | .fcons k1 v1 r1, .fcons k2 v2 r2 => decide (k1 = k2) && frameOK v1 v2 && frameOKF r1 r2
  | _, _ => false
end

mutual
/-- Pointwise coverage monotonicity between two same-shaped trees: every
node's `fully_covered` flag only ever goes from false to true. -/
def covLE : Asn1Container → Asn1Container → Bool
  | .mk _ _ _ n1 _ c1, .mk _ _ _ n2 _ c2 => (!c1 || c2) && covLEN n1 n2

def covLEN : Nested → Nested → Bool
  | .nnone, .nnone => true
  | .nmap f1, .nmap f2 => covLEF f1 f2
  | .nsingle a, .nsingle b => covLE a b
  | .nlabels a, .nlabels b => decide (a = b)
  | .nfactory a, .nfactory b => decide (a = b)
  | _, _ => false

def covLEF : Fields → Fields → Bool
  | .fnil, .fnil => true
  | .fcons k1 v1 r1, .fcons k2 v2 r2 => decide (k1 = k2) && covLE v1 v2 && covLEF r1 r2
  | _, _ => false
end

/-- The child flags a node's own `fully_covered` flag summarises (per the
flag recomputation at the end of `fuzz`). -/
def childFlagsOK (ty : String) (nst : Nested) : Bool :=
  match ty with
  | "SEQUENCE OF" =>
      match nst with
      | .nsingle ch => ch.fully_covered
      | _ => true
  | "CHOICE" | "OPEN_TYPE" | "ANY" | "SEQUENCE" =>
      match nst with
      | .nmap fs => fs.allCovered
      | _ => true
  | _ => true

mutual
/-- Coverage soundness: every covered composite node has covered children.
`fuzz` itself establishes this wherever it sets a flag, and freshly
constructed trees (all flags false) satisfy it trivially, so it is an
invariant of the generation lifecycle. -/
def goodCov : Asn1Container → Bool
  | .mk _ ty _ nst _ cov => (!cov || childFlagsOK ty nst) && goodCovN nst

def goodCovN : Nested → Bool
  | .nnone => true
  | .nlabels _ => true
  | .nfactory _ => true
  | .nsingle c => goodCov c
  | .nmap fs => goodCovF fs

def goodCovF : Fields → Bool
  | .fnil => true
  | .fcons _ v rest => goodCov v && goodCovF rest
end

mutual
/-- No EXPANDABLE node anywhere in the tree. -/
def noExpandable : Asn1Container → Bool
  | .mk _ ty _ nst _ _ => !decide (ty = "EXPANDABLE") && noExpandableN nst

def noExpandableN : Nested → Bool
  | .nnone => true
  | .nlabels _ => true
  | .nfactory _ => true
  | .nsingle c => noExpandable c
  | .nmap fs => noExpandableF fs

def noExpandableF : Fields → Bool
  | .fnil => true
  | .fcons _ v rest => noExpandable v && noExpandableF rest
end

mutual
/-- Data-model shape (spec §3): composite nodes carry a field dict and each
SEQUENCE OF carries a single element child. -/
def wfShape : Asn1Container → Bool
  | .mk _ ty _ nst _ _ =>
    match ty with
    | "CHOICE" | "OPEN_TYPE" | "ANY" | "SEQUENCE" =>
        match nst with
        | .nmap fs => wfShapeF fs
        | _ => false
    | "SEQUENCE OF" =>
        match nst with
        | .nsingle c => wfShape c
        | _ => false
    | _ => true

def wfShapeF : Fields → Bool
  | .fnil => true
  | .fcons _ v rest => wfShape v && wfShapeF rest
end

/-- The value bounds claimed for the INTEGER arm, per constraint shape. -/
def intSpec (rg : Option RangeT) (v : Int) : Prop :=
  match rg with
  | none => 0 ≤ v ∧ v < 128
  | some (m, none, _) => m ≤ v ∧ v < 128
  | some (m, some M, _) => (m = M → v = m) ∧ (m ≠ M → m ≤ v ∧ v < M)

/-! ### Concrete trees used by counterexamples and witnesses -/

def nullNode : Asn1Container := .mk "n" "NULL" false .nnone none false

def intNode : Asn1Container := .mk "i" "INTEGER" false .nnone (some (3, some 10, none)) false

def boolNode : Asn1Container := .mk "b" "BOOLEAN" false .nnone none false

def expNode : Asn1Container := .mk "e" "EXPANDABLE" false (.nfactory 0) none false

/-- SEQUENCE OF with count constraint `(0, 5, 1)`, uncovered. -/
def seqOf35 : Asn1Container :=
  .mk "s35" "SEQUENCE OF" false (.nsingle nullNode) (some (0, some 5, some 1)) false

/-- SEQUENCE OF with open-ended count constraint `(0, None, 1)`, uncovered. -/
def seqOfOpen : Asn1Container :=
  .mk "qop" "SEQUENCE OF" false (.nsingle nullNode) (some (0, none, some 1)) false

/-- SEQUENCE OF with `nested is None` (as in the source's IVIM hack). -/
def seqOfNoChild : Asn1Container := .mk "snc" "SEQUENCE OF" false .nnone none false

/-- A CHOICE field (identity `fid`) whose only child has identity `xid`. -/
def c5choice : Asn1Container :=
  .mk "fid" "CHOICE" false (.nmap (.fcons "x" (.mk "xid" "BOOLEAN" false .nnone none false) .fnil)) none false

/-- A SEQUENCE whose single field `f` is the CHOICE above. -/
def c5seq : Asn1Container :=
  .mk "s5" "SEQUENCE" false (.nmap (.fcons "f" c5choice .fnil)) none false

/-- A SEQUENCE with an INTEGER field `g` and the CHOICE field `f`. -/
def c5seq2 : Asn1Container :=
  .mk "s52" "SEQUENCE" false (.nmap (.fcons "g" intNode (.fcons "f" c5choice .fnil))) none false

/-- The three-scalar-children CHOICE of the coverage-exhaustion scenario:
`{A: BOOLEAN, B: NULL, C: INTEGER(0,1)}`, all uncovered. -/
def c8tree : Asn1Container :=
  .mk "root" "CHOICE" false
    (.nmap (.fcons "A" (.mk "A" "BOOLEAN" false .nnone none false)
      (.fcons "B" (.mk "B" "NULL" false .nnone none false)
        (.fcons "C" (.mk "C" "INTEGER" false .nnone (some (0, some 1, none)) false) .fnil))))
    none false

/-- An EXPANDABLE with a live factory sitting under a SEQUENCE OF that is a
field of a SEQUENCE: the configuration of the expansion counterexample. -/
def seqOfExp : Asn1Container :=
  .mk "qe" "SEQUENCE OF" false (.nsingle expNode) (some (0, some 5, some 1)) false

def seqWithSeqOfExp : Asn1Container :=
  .mk "se" "SEQUENCE" false (.nmap (.fcons "a" seqOfExp .fnil)) none false

/-- A concrete factory collection for the expansion counterexample: every
factory returns a fresh NULL node and leaves the history untouched. -/
def gpNull : Nat → Nat → Asn1Container × Nat := fun _ h => (nullNode, h)

/-- A SEQUENCE whose only field is directly an EXPANDABLE with a factory. -/
def seqWithExp : Asn1Container :=
  .mk "we" "SEQUENCE" false (.nmap (.fcons "a" expNode .fnil)) none false

/-! ## Theorems -/

@[simp]
theorem ok_bind {α β : Type} (a : α) (f : α → Except String β) :
    (Except.ok a : Except String α) >>= f = f a := rfl

@[simp]
theorem error_bind {α β : Type} (e : String) (f : α → Except String β) :
    (Except.error e : Except String α) >>= f = Except.error e := rfl

theorem randrange_ok {a b v : Int} {rng r : List Nat}
    (h : randrange a b rng = .ok (v, r)) : a ≤ v ∧ v < b := by
  unfold randrange randrangeStep at h
  simp only [show b - a + 1 - 1 = b - a from by ring, Int.fdiv_one, one_mul,
    if_neg (by norm_num : ¬(1 : Int) ≤ 0)] at h
  split at h
  · exact absurd h (by simp)
  · rename_i hn
    simp only [Except.ok.injEq, Prod.mk.injEq] at h
    have h0 : 0 < b - a := by omega
    have hm1 : 0 ≤ (rng.headI : Int) % (b - a) := Int.emod_nonneg _ (by omega)
    have hm2 : (rng.headI : Int) % (b - a) < b - a := Int.emod_lt_of_pos _ h0
    omega

theorem fuzzInteger_ok {rg : Option RangeT} {rng : List Nat} {v : Int} {r : List Nat}
    (h : fuzzInteger rg rng = .ok (v, r)) : intSpec rg v := by
  match rg with
  | none => exact randrange_ok h
  | some (m, none, s) => exact randrange_ok h
  | some (m, some M, s) =>
    simp only [fuzzInteger] at h
    by_cases hm : m = M
    · rw [if_pos hm] at h
      simp only [Except.ok.injEq, Prod.mk.injEq] at h
      exact ⟨fun _ => h.1.symm, fun hc => absurd hm hc⟩
    · rw [if_neg hm] at h
      exact ⟨fun hc => absurd hc hm, fun _ => randrange_ok h⟩

theorem coverUpdate_INTEGER (u : String) (opt : Bool) (nst : Nested) (rg : Option RangeT)
    (cov : Bool) :
    coverUpdate (.mk u "INTEGER" opt nst rg cov) = .ok (.mk u "INTEGER" opt nst rg true) := rfl

/-- C1: for an INTEGER node, a successful `fuzz` call returns an integer v
with: no constraint → 0 ≤ v < 128; `(min, None)` → min ≤ v < 128;
`(min, max)` with min == max → v = min; min ≠ max → min ≤ v < max (upper
bound exclusive; for min > max the draw raises, so no value is returned). -/
theorem C1_integer_fuzz_bounds
    (u : String) (opt : Bool) (nst : Nested) (rg : Option RangeT) (cov : Bool)
    (al bl : Option (List String)) (ca : Bool) (msc : Int) (rng : List Nat)
    (v : Option Value) (d : Asn1Container) (r : List Nat)
    (h : fuzz (.mk u "INTEGER" opt nst rg cov) al bl ca msc rng = .ok (v, d, r)) :
    ∃ i : Int, v = some (.vint i) ∧ intSpec rg i := by
  simp only [fuzz, depth, fuzzF] at h
  cases hfi : fuzzInteger rg rng with
  | error e => rw [hfi] at h; exact absurd h (by simp)
  | ok p =>
    obtain ⟨vi, r'⟩ := p
    rw [hfi] at h
    simp only [ok_bind, coverUpdate_INTEGER, Except.ok.injEq, Prod.mk.injEq] at h
    exact ⟨vi, h.1.symm, fuzzInteger_ok hfi⟩

/-- C1 witness: the INTEGER node with range `(3, 10)` and draw 5 yields
`3 + 5 % 7 = 8`, inside the claimed bounds. -/
theorem C1_witness :
    ∃ i : Int, (some (Value.vint 8) : Option Value) = some (.vint i) ∧
      (3 : Int) ≤ i ∧ i < 10 := by
  obtain ⟨i, hi, hb⟩ := C1_integer_fuzz_bounds "i" false .nnone (some (3, some 10, none)) false
    none none false 1 [5] (some (.vint 8))
    (.mk "i" "INTEGER" false .nnone (some (3, some 10, none)) true) [] rfl
  exact ⟨i, hi, hb.2 (by norm_num)⟩

/-- C9: calling `fuzz` on an EXPANDABLE (PLACEHOLDER) node raises the
`ValueError` instead of returning a value. -/
theorem C9_expandable_fuzz_raises
    (c : Asn1Container) (al bl : Option (List String)) (ca : Bool) (msc : Int)
    (rng : List Nat) (h : c.asn1_type = "EXPANDABLE") :
    fuzz c al bl ca msc rng = .error "Please remove EXPANDABLEs bevore fuzzing!" := by
  obtain ⟨u, ty, opt, nst, rg, cov⟩ := c
  simp only [Asn1Container.asn1_type] at h
  subst h
  simp only [fuzz, depth, fuzzF]

/-- C9 witness: the concrete EXPANDABLE node. -/
theorem C9_witness :
    fuzz expNode none none false 1 [] = .error "Please remove EXPANDABLEs bevore fuzzing!" :=
  C9_expandable_fuzz_raises expNode none none false 1 [] rfl

theorem coverUpdate_SEQOF (u : String) (opt : Bool) (ch : Asn1Container) (rg : Option RangeT)
    (cov : Bool) :
    coverUpdate (.mk u "SEQUENCE OF" opt (.nsingle ch) rg cov) =
      .ok (.mk u "SEQUENCE OF" opt (.nsingle ch) rg ch.fully_covered) := rfl

theorem coverUpdate_SEQUENCE (u : String) (opt : Bool) (fs : Fields) (rg : Option RangeT)
    (cov : Bool) :
    coverUpdate (.mk u "SEQUENCE" opt (.nmap fs) rg cov) =
      .ok (.mk u "SEQUENCE" opt (.nmap fs) rg fs.allCovered) := rfl

theorem fuzzElemsGo_ok_length
    (F : Asn1Container → List Nat → Except String (Option Value × Asn1Container × List Nat)) :
    ∀ (n : Nat) (ch : Asn1Container) (rng : List Nat) (vs : List (Option Value))
      (d : Asn1Container) (r : List Nat),
      fuzzElemsGo F ch n rng = .ok (vs, d, r) → vs.length = n := by
  intro n
  induction n with
  | zero =>
    intro ch rng vs d r h
    simp only [fuzzElemsGo, Except.ok.injEq, Prod.mk.injEq] at h
    rw [← h.1]
    rfl
  | succ n ih =>
    intro ch rng vs d r h
    simp only [fuzzElemsGo] at h
    cases hF : F ch rng with
    | error e => rw [hF] at h; exact absurd h (by simp)
    | ok p =>
      obtain ⟨v, ch', r1⟩ := p
      rw [hF] at h
      simp only [ok_bind] at h
      cases hE : fuzzElemsGo F ch' n r1 with
      | error e => rw [hE] at h; exact absurd h (by simp)
      | ok q =>
        obtain ⟨vs', ch'', r'⟩ := q
        rw [hE] at h
        simp only [ok_bind, Except.ok.injEq, Prod.mk.injEq] at h
        rw [← h.1]
        simp [ih ch' r1 vs' ch'' r' hE]

/-- C3 counterexample: the claim fails as stated.  For the SEQUENCE OF node
with constraint `(0, 5, 1)`, still uncovered, `coverage_aware=True` and the
positive `max_seq_of_count = 6`, `fuzz` does not return a list at all: the
capped bound `max(0+1, 6) = 6` becomes the forced minimum, which exceeds
`min(5, 6)`, so `random.randrange(6, 5, 1)` raises `ValueError`. -/
theorem C3_counterexample :
    seqOf35.range = some (0, some 5, some 1) ∧ seqOf35.fully_covered = false ∧
    fuzz seqOf35 none none true 6 [] = .error "empty range for randrange" :=
  ⟨rfl, rfl, rfl⟩

/-- C3 (amended): for a SEQUENCE OF node with constraint `(0, 5, 1)` whose
covered flag is false, a `fuzz` call with `coverage_aware=True` and a
positive `max_seq_of_count ≤ 5` (so that the capped bound stays within the
declared maximum) returns a list with at least one element. -/
theorem C3_seqof_uncovered_nonempty
    (u : String) (opt : Bool) (ch : Asn1Container) (al bl : Option (List String))
    (msc : Int) (rng : List Nat) (v : Option Value) (d : Asn1Container) (r : List Nat)
    (hmsc1 : 1 ≤ msc) (hmsc5 : msc ≤ 5)
    (h : fuzz (.mk u "SEQUENCE OF" opt (.nsingle ch) (some (0, some 5, some 1)) false)
        al bl true msc rng = .ok (v, d, r)) :
    ∃ vs : List (Option Value), v = some (.vlist vs) ∧ 1 ≤ vs.length := by
  have hsc : seqOfCount (some (0, some 5, some 1)) false msc rng = .ok (msc, some (0, some 5, some 1), rng) := by
    have h1 : (1 : Int) ⊔ msc = msc := max_eq_right hmsc1
    have h2 : (5 : Int) ⊓ msc = msc := min_eq_right hmsc5
    simp [seqOfCount, better_randrange, Option.getD, h1, h2]
  simp only [fuzz, depth, fuzzF] at h
  rw [hsc] at h
  simp only [ok_bind] at h
  cases hE : fuzzElemsGo (fuzzF al bl true msc (ndepth (.nsingle ch))) ch msc.toNat rng with
  | error e => rw [hE] at h; exact absurd h (by simp)
  | ok q =>
    obtain ⟨vs, ch', r'⟩ := q
    rw [hE] at h
    simp only [ok_bind, coverUpdate_SEQOF, Except.ok.injEq, Prod.mk.injEq] at h
    refine ⟨vs, h.1.symm, ?_⟩
    have := fuzzElemsGo_ok_length _ _ _ _ _ _ _ hE
    omega

/-- C3 witness: `max_seq_of_count = 2` yields the two-element list. -/
theorem C3_witness :
    ∃ vs : List (Option Value),
      (some (Value.vlist [some (.vint 0), some (.vint 0)]) : Option Value) = some (.vlist vs) ∧
      1 ≤ vs.length := by
  refine C3_seqof_uncovered_nonempty "s35" false nullNode none none 2 []
    (some (.vlist [some (.vint 0), some (.vint 0)]))
    (.mk "s35" "SEQUENCE OF" false (.nsingle (.mk "n" "NULL" false .nnone none true))
      (some (0, some 5, some 1)) true) []
    (by norm_num) (by norm_num) rfl

/-- C4 counterexample: the claim fails as stated — `fuzz` does not only
mutate covered flags.  On the uncovered SEQUENCE OF node with open-ended
constraint `(0, None, 1)` it permanently rewrites `self.range` to
`(1, None, 1)` ("Force at least one"). -/
theorem C4_counterexample :
    seqOfOpen.range = some (0, none, some 1) ∧
    fuzz seqOfOpen none none true 1 [] =
      .ok (some (.vlist [some (.vint 0)]),
        .mk "qop" "SEQUENCE OF" false (.nsingle (.mk "n" "NULL" false .nnone none true))
          (some (1, none, some 1)) true, []) ∧
    (some ((1 : Int), (none : Option Int), some (1 : Int)) : Option RangeT) ≠ seqOfOpen.range :=
  ⟨rfl, rfl, by decide⟩

/-- C5 counterexample: the claim fails as stated.  The SEQUENCE has exactly
one field `f` (identity `fid`, a CHOICE) and the allowlist is exactly
`{fid}`, yet the returned mapping is empty: the recursive call on the CHOICE
finds none of *its* children allowlisted, yields Python `None`, and the
`is not None` test drops the field. -/
theorem C5_counterexample :
    c5seq.nested = .nmap (.fcons "f" c5choice .fnil) ∧
    c5choice.unique_ident = "fid" ∧
    fuzz c5seq (some ["fid"]) none false 1 [] = .ok (some (.vmap []), c5seq, []) :=
  ⟨rfl, rfl, rfl⟩

/-- C7 counterexample: the claim fails as stated.  A SEQUENCE OF node with
`nested is None` contains no EXPANDABLE node, yet `remove_expandable`
returns `False` (the source's "Dirty hack for IVIM"), not success. -/
theorem C7_counterexample :
    noExpandable seqOfNoChild = true ∧
    remove_expandable seqOfNoChild = .ok (false, seqOfNoChild) :=
  ⟨rfl, rfl⟩

/-- C2 counterexample: the claim fails as stated.  `seqWithSeqOfExp` is a
SEQUENCE whose only field is a SEQUENCE OF whose single element child is an
EXPANDABLE with a live factory, yet one `expand_once` pass returns the tree
(and history) entirely unchanged: the pass never descends through SEQUENCE
OF nodes, so the placeholder is not replaced by the factory's output. -/
theorem C2_counterexample :
    seqWithSeqOfExp.nested = .nmap (.fcons "a" seqOfExp .fnil) ∧
    seqOfExp.nested = .nsingle expNode ∧
    expNode.asn1_type = "EXPANDABLE" ∧
    expNode.nested = .nfactory 0 ∧
    gpNull 0 0 = (nullNode, 0) ∧
    expand_once gpNull seqWithSeqOfExp 0 = .ok (seqWithSeqOfExp, 0) :=
  ⟨rfl, rfl, rfl, rfl, rfl, rfl⟩

theorem blIrrelevant_aux (al bl bl' : Option (List String)) (ca : Bool) (msc : Int) :
    ∀ f : Nat, ∀ (c : Asn1Container) (rng : List Nat),
      fuzzF al bl ca msc f c rng = fuzzF al bl' ca msc f c rng := by
  intro f
  induction f with
  | zero => intro c rng; rfl
  | succ f ih =>
    intro c rng
    have hF : fuzzF al bl ca msc f = fuzzF al bl' ca msc f :=
      funext fun c => funext fun rng => ih c rng
    obtain ⟨u, ty, opt, nst, rg, cov⟩ := c
    simp only [fuzzF]
    rw [hF]

/-- C10: the `blocklist` argument is dead — two `fuzz` calls that differ
only in the blocklist (any two values, `None` included), on the same tree
state with the same random stream, return the same value, the same updated
tree, and the same remaining stream. -/
theorem C10_blocklist_noop (c : Asn1Container) (al bl bl' : Option (List String))
    (ca : Bool) (msc : Int) (rng : List Nat) :
    fuzz c al bl ca msc rng = fuzz c al bl' ca msc rng :=
  blIrrelevant_aux al bl bl' ca msc (depth c) c rng

/-- A node whose kind is not CHOICE/OPEN_TYPE/ANY/SEQUENCE falls through the
`expand_once` match and is returned entirely unchanged, history untouched. -/
theorem expand_once_other {H : Type} (gp : Nat → H → Asn1Container × H) (u ty : String)
    (opt : Bool) (nst : Nested) (rg : Option RangeT) (cov : Bool) (h : H)
    (h1 : ty ≠ "CHOICE") (h2 : ty ≠ "OPEN_TYPE") (h3 : ty ≠ "ANY") (h4 : ty ≠ "SEQUENCE") :
    expand_once gp (.mk u ty opt nst rg cov) h = .ok (.mk u ty opt nst rg cov, h) := by
  rw [expand_once.eq_def]
  split
  simp_all

/-- Unfolding of `expand_once` on a traversed node carrying a field map. -/
theorem expand_once_composite {H : Type} (gp : Nat → H → Asn1Container × H) (u ty : String)
    (o : Bool) (fs : Fields) (rg : Option RangeT) (cov : Bool) (h : H)
    (hty : ty = "CHOICE" ∨ ty = "OPEN_TYPE" ∨ ty = "ANY" ∨ ty = "SEQUENCE") :
    expand_once gp (.mk u ty o (.nmap fs) rg cov) h =
      expandFields gp fs h >>= fun q => .ok (.mk u ty o (.nmap q.1) rg cov, q.2) := by
  rcases hty with h1 | h1 | h1 | h1 <;> subst h1 <;> rfl

/-- Unfolding of `expand_once` on a traversed node whose `nested` is not a
field map: the attribute access on `nested.items()` fails. -/
theorem expand_once_traversed_err {H : Type} (gp : Nat → H → Asn1Container × H) (u ty : String)
    (o : Bool) (nst : Nested) (rg : Option RangeT) (cov : Bool) (h : H)
    (hty : ty = "CHOICE" ∨ ty = "OPEN_TYPE" ∨ ty = "ANY" ∨ ty = "SEQUENCE")
    (hn : ∀ fs : Fields, nst ≠ .nmap fs) :
    expand_once gp (.mk u ty o nst rg cov) h = .error "AttributeError" := by
  rcases hty with h1 | h1 | h1 | h1 <;> subst h1 <;> cases nst <;>
    first
    | exact absurd rfl (hn _)
    | rfl

/-- Simultaneous induction over the mutual container/nested/fields tree. -/
theorem tree_ind {P : Asn1Container → Prop} {Q : Nested → Prop} {R : Fields → Prop}
    (hmk : ∀ (u t : String) (o : Bool) (nst : Nested) (rg : Option RangeT) (cov : Bool),
      Q nst → P (.mk u t o nst rg cov))
    (hnone : Q .nnone)
    (hmap : ∀ fs : Fields, R fs → Q (.nmap fs))
    (hsingle : ∀ c : Asn1Container, P c → Q (.nsingle c))
    (hlabels : ∀ ls : List String, Q (.nlabels ls))
    (hfactory : ∀ fid : Nat, Q (.nfactory fid))
    (hfnil : R .fnil)
    (hfcons : ∀ (k : String) (v : Asn1Container) (rest : Fields),
      P v → R rest → R (.fcons k v rest)) :
    (∀ c, P c) ∧ (∀ nst, Q nst) ∧ (∀ fs, R fs) :=
  ⟨fun c => Asn1Container.rec hmk hnone hmap hsingle hlabels hfactory hfnil hfcons c,
   fun nst => Nested.rec hmk hnone hmap hsingle hlabels hfactory hfnil hfcons nst,
   fun fs => Fields.rec hmk hnone hmap hsingle hlabels hfactory hfnil hfcons fs⟩

theorem C2_expand_aux {H : Type} (gp : Nat → H → Asn1Container × H) :
    (∀ c : Asn1Container, ∀ (h : H) (d : Asn1Container) (h2 : H),
      expand_once gp c h = .ok (d, h2) → ExpandedSpec gp c h d h2) ∧
    (∀ nst : Nested,
      (match nst with
       | .nmap fs => ∀ (h : H) (fs2 : Fields) (h2 : H),
           expandFields gp fs h = .ok (fs2, h2) → ExpandedSpecF gp fs h fs2 h2
       | _ => True)) ∧
    (∀ fs : Fields, ∀ (h : H) (fs2 : Fields) (h2 : H),
      expandFields gp fs h = .ok (fs2, h2) → ExpandedSpecF gp fs h fs2 h2) := by
  apply tree_ind
  · intro u t o nst rg cov hQ h d h2 hx
    by_cases hT : t = "CHOICE" ∨ t = "OPEN_TYPE" ∨ t = "ANY" ∨ t = "SEQUENCE"
    · cases nst with
      | nmap fs =>
        rw [expand_once_composite gp u t o fs rg cov h hT] at hx
        cases hE : expandFields gp fs h with
        | error e => rw [hE] at hx; exact absurd hx (by simp)
        | ok q =>
          obtain ⟨fs2, h3⟩ := q
          rw [hE] at hx
          simp only [ok_bind, Except.ok.injEq, Prod.mk.injEq] at hx
          obtain ⟨hd, hh⟩ := hx
          subst hd
          subst hh
          exact ExpandedSpec.composite u t o fs fs2 rg cov h h3 hT (hQ h fs2 h3 hE)
      | nnone =>
        rw [expand_once_traversed_err gp u t o .nnone rg cov h hT
          (fun fs hf => by cases hf)] at hx
        exact absurd hx (by simp)
      | nsingle c2 =>
        rw [expand_once_traversed_err gp u t o (.nsingle c2) rg cov h hT
          (fun fs hf => by cases hf)] at hx
        exact absurd hx (by simp)
      | nlabels ls =>
        rw [expand_once_traversed_err gp u t o (.nlabels ls) rg cov h hT
          (fun fs hf => by cases hf)] at hx
        exact absurd hx (by simp)
      | nfactory fid =>
        rw [expand_once_traversed_err gp u t o (.nfactory fid) rg cov h hT
          (fun fs hf => by cases hf)] at hx
        exact absurd hx (by simp)
    · push_neg at hT
      obtain ⟨h1, hA, hB, hC⟩ := hT
      rw [expand_once_other gp u t o nst rg cov h h1 hA hB hC] at hx
      simp only [Except.ok.injEq, Prod.mk.injEq] at hx
      obtain ⟨hd, hh⟩ := hx
      subst hd
      subst hh
      exact ExpandedSpec.other u t o nst rg cov h h1 hA hB hC
  · trivial
  · intro fs hR
    exact hR
  · intro c _
    trivial
  · intro ls
    trivial
  · intro fid
    trivial
  · intro h fs2 h2 hx
    simp only [expandFields, Except.ok.injEq, Prod.mk.injEq] at hx
    obtain ⟨hd, hh⟩ := hx
    subst hd
    subst hh
    exact ExpandedSpecF.nil h
  · intro k v rest hP hR h fs2 h2 hx
    simp only [expandFields] at hx
    by_cases he : v.asn1_type = "EXPANDABLE"
    · rw [if_pos he] at hx
      cases hn : v.nested with
      | nnone =>
        rw [hn] at hx
        dsimp only at hx
        cases hv : expand_once gp v h with
        | error e => rw [hv] at hx; exact absurd hx (by simp)
        | ok p =>
          obtain ⟨v1, h1⟩ := p
          rw [hv] at hx
          simp only [ok_bind] at hx
          cases hE : expandFields gp rest h1 with
          | error e => rw [hE] at hx; exact absurd hx (by simp)
          | ok q =>
            obtain ⟨rest1, h3⟩ := q
            rw [hE] at hx
            simp only [ok_bind, Except.ok.injEq, Prod.mk.injEq] at hx
            obtain ⟨hd, hh⟩ := hx
            subst hd
            subst hh
            exact ExpandedSpecF.child k v v1 rest rest1 h h1 h3 (by simp [hn])
              (hP h v1 h1 hv) (hR h1 rest1 h3 hE)
      | nfactory fid =>
        rw [hn] at hx
        dsimp only at hx
        rcases hgp : gp fid h with ⟨nv, h1⟩
        rw [hgp] at hx
        dsimp only at hx
        cases hE : expandFields gp rest h1 with
        | error e => rw [hE] at hx; exact absurd hx (by simp)
        | ok q =>
          obtain ⟨rest1, h3⟩ := q
          rw [hE] at hx
          simp only [ok_bind, Except.ok.injEq, Prod.mk.injEq] at hx
          obtain ⟨hd, hh⟩ := hx
          subst hd
          subst hh
          have hrest : ExpandedSpecF gp rest (gp fid h).2 rest1 h3 := by
            rw [hgp]
            exact hR h1 rest1 h3 hE
          have hmain := ExpandedSpecF.factory k v rest rest1 fid h h3 he hn hrest
          rw [hgp] at hmain
          exact hmain
      | nmap fsv => rw [hn] at hx; exact absurd hx (by simp)
      | nsingle cv => rw [hn] at hx; exact absurd hx (by simp)
      | nlabels ls => rw [hn] at hx; exact absurd hx (by simp)
    · rw [if_neg he] at hx
      cases hv : expand_once gp v h with
      | error e => rw [hv] at hx; exact absurd hx (by simp)
      | ok p =>
        obtain ⟨v1, h1⟩ := p
        rw [hv] at hx
        simp only [ok_bind] at hx
        cases hE : expandFields gp rest h1 with
        | error e => rw [hE] at hx; exact absurd hx (by simp)
        | ok q =>
          obtain ⟨rest1, h3⟩ := q
          rw [hE] at hx
          simp only [ok_bind, Except.ok.injEq, Prod.mk.injEq] at hx
          obtain ⟨hd, hh⟩ := hx
          subst hd
          subst hh
          exact ExpandedSpecF.child k v v1 rest rest1 h h1 h3 (by simp [he])
            (hP h v1 h1 hv) (hR h1 rest1 h3 hE)

/-- C2 (amended): `expand_once` traverses only CHOICE/OPEN_TYPE/ANY/SEQUENCE
nodes — a node of any other kind (SEQUENCE OF included, hence any PLACEHOLDER
that is the element child of a SEQUENCE OF) is returned entirely unchanged —
and every successful pass on any node satisfies the claim-level relation
`ExpandedSpec`: in every traversed node, every direct EXPANDABLE child with a
live factory is replaced, at its position and under its key, by the factory's
freshly constructed subtree, with the history threaded through the factory
calls in pass order, every other child is expanded recursively, and no child
is added, dropped or reordered. -/
theorem C2_expand_once_traversal :
    (∀ (H : Type) (gp : Nat → H → Asn1Container × H) (u ty : String) (opt : Bool)
      (nst : Nested) (rg : Option RangeT) (cov : Bool) (h : H),
      ty ≠ "CHOICE" → ty ≠ "OPEN_TYPE" → ty ≠ "ANY" → ty ≠ "SEQUENCE" →
      expand_once gp (.mk u ty opt nst rg cov) h = .ok (.mk u ty opt nst rg cov, h)) ∧
    (∀ (H : Type) (gp : Nat → H → Asn1Container × H) (c : Asn1Container) (h : H)
      (d : Asn1Container) (h2 : H),
      expand_once gp c h = .ok (d, h2) → ExpandedSpec gp c h d h2) :=
  ⟨fun _ gp u ty opt nst rg cov h h1 h2 h3 h4 =>
     expand_once_other gp u ty opt nst rg cov h h1 h2 h3 h4,
   fun _ gp c h d h2 hx => (C2_expand_aux gp).1 c h d h2 hx⟩

/-- C2 witness: the pass leaves the SEQUENCE OF node (with its EXPANDABLE
element child) entirely alone, and on the SEQUENCE whose field is directly an
EXPANDABLE with factory 0 the successful pass satisfies `ExpandedSpec` with
that field replaced by the factory output `nullNode`. -/
theorem C2_witness :
    expand_once gpNull seqOfExp 0 = .ok (seqOfExp, 0) ∧
    ExpandedSpec gpNull seqWithExp 0
      (.mk "we" "SEQUENCE" false (.nmap (.fcons "a" nullNode .fnil)) none false) 0 := by
  constructor
  · exact C2_expand_once_traversal.1 Nat gpNull "qe" "SEQUENCE OF" false (.nsingle expNode)
      (some (0, some 5, some 1)) false 0 (by decide) (by decide) (by decide) (by decide)
  · exact C2_expand_once_traversal.2 Nat gpNull seqWithExp 0
      (.mk "we" "SEQUENCE" false (.nmap (.fcons "a" nullNode .fnil)) none false) 0 (by rfl)

theorem C7_prune_aux :
    (∀ c : Asn1Container, wfShape c = true → noExpandable c = true →
      remove_expandable c = .ok (true, c)) ∧
    (∀ nst : Nested,
      (match nst with
       | .nmap fs => wfShapeF fs = true → noExpandableF fs = true →
           removeFieldsChoice fs = .ok fs ∧ removeFieldsSeq fs = .ok (true, fs)
       | .nsingle c => wfShape c = true → noExpandable c = true →
           remove_expandable c = .ok (true, c)
       | _ => True)) ∧
    (∀ fs : Fields, wfShapeF fs = true → noExpandableF fs = true →
      removeFieldsChoice fs = .ok fs ∧ removeFieldsSeq fs = .ok (true, fs)) := by
  apply tree_ind
  · intro u t o nst rg cov hQ hwf hne
    simp only [noExpandable, Bool.and_eq_true, Bool.not_eq_true', decide_eq_false_iff_not] at hne
    obtain ⟨hneT, hneN⟩ := hne
    by_cases h1 : t = "CHOICE"
    · subst h1
      cases nst with
      | nmap fs =>
        simp only [wfShape] at hwf
        simp only [noExpandableN] at hneN
        rw [remove_expandable.eq_2, (hQ hwf hneN).1]
        rfl
      | nnone => simp [wfShape] at hwf
      | nsingle c => simp [wfShape] at hwf
      | nlabels ls => simp [wfShape] at hwf
      | nfactory fid => simp [wfShape] at hwf
    by_cases h2 : t = "OPEN_TYPE"
    · subst h2
      cases nst with
      | nmap fs =>
        simp only [wfShape] at hwf
        simp only [noExpandableN] at hneN
        rw [remove_expandable.eq_4, (hQ hwf hneN).1]
        rfl
      | nnone => simp [wfShape] at hwf
      | nsingle c => simp [wfShape] at hwf
      | nlabels ls => simp [wfShape] at hwf
      | nfactory fid => simp [wfShape] at hwf
    by_cases h3 : t = "ANY"
    · subst h3
      cases nst with
      | nmap fs =>
        simp only [wfShape] at hwf
        simp only [noExpandableN] at hneN
        rw [remove_expandable.eq_6, (hQ hwf hneN).1]
        rfl
      | nnone => simp [wfShape] at hwf
      | nsingle c => simp [wfShape] at hwf
      | nlabels ls => simp [wfShape] at hwf
      | nfactory fid => simp [wfShape] at hwf
    by_cases h4 : t = "SEQUENCE"
    · subst h4
      cases nst with
      | nmap fs =>
        simp only [wfShape] at hwf
        simp only [noExpandableN] at hneN
        rw [remove_expandable.eq_8, (hQ hwf hneN).2]
        rfl
      | nnone => simp [wfShape] at hwf
      | nsingle c => simp [wfShape] at hwf
      | nlabels ls => simp [wfShape] at hwf
      | nfactory fid => simp [wfShape] at hwf
    by_cases h5 : t = "SEQUENCE OF"
    · subst h5
      cases nst with
      | nsingle c =>
        simp only [wfShape] at hwf
        simp only [noExpandableN] at hneN
        rw [remove_expandable.eq_11, hQ hwf hneN]
        rfl
      | nnone => simp [wfShape] at hwf
      | nmap fs => simp [wfShape] at hwf
      | nlabels ls => simp [wfShape] at hwf
      | nfactory fid => simp [wfShape] at hwf
    exact remove_expandable.eq_13 u t o nst rg cov hneT h1 h2 h3 h4 h5
  · trivial
  · intro fs ih
    exact ih
  · intro c ih
    exact ih
  · intro ls
    trivial
  · intro fid
    trivial
  · intro _ _
    exact ⟨rfl, rfl⟩
  · intro k v rest ihv ihrest hwf hne
    simp only [wfShapeF, Bool.and_eq_true] at hwf
    simp only [noExpandableF, Bool.and_eq_true] at hne
    have hv := ihv hwf.1 hne.1
    have hr := ihrest hwf.2 hne.2
    constructor
    · rw [removeFieldsChoice, hv, hr.1]
      rfl
    · rw [removeFieldsSeq, hv, hr.2]
      rfl

/-- C7 (amended): on a data-model-well-formed tree (every SEQUENCE OF has an
element child, every composite node carries a field dict) containing no
EXPANDABLE node, `remove_expandable` reports success and returns the tree
unchanged: no child is removed from any node. -/
theorem C7_prune_idempotent (c : Asn1Container) (hwf : wfShape c = true)
    (hne : noExpandable c = true) : remove_expandable c = .ok (true, c) :=
  C7_prune_aux.1 c hwf hne

/-- C7 witness: the SEQUENCE with an INTEGER field and a CHOICE field is
PLACEHOLDER-free and well-formed, and pruning returns it unchanged. -/
theorem C7_witness : remove_expandable c5seq2 = .ok (true, c5seq2) :=
  C7_prune_idempotent c5seq2 rfl rfl

/-- Plain induction over `Fields` (specialisation of `tree_ind`). -/
theorem fields_ind {R : Fields → Prop} (hnil : R .fnil)
    (hcons : ∀ (k : String) (v : Asn1Container) (rest : Fields), R rest → R (.fcons k v rest)) :
    ∀ fs, R fs :=
  (tree_ind (P := fun _ => True) (Q := fun _ => True) (R := R)
    (fun _ _ _ _ _ _ _ => trivial) trivial (fun _ _ => trivial) (fun _ _ => trivial)
    (fun _ => trivial) (fun _ => trivial) hnil (fun k v rest _ hr => hcons k v rest hr)).2.2

theorem coverUpdate_BOOLEAN (u : String) (opt : Bool) (nst : Nested) (rg : Option RangeT)
    (cov : Bool) :
    coverUpdate (.mk u "BOOLEAN" opt nst rg cov) = .ok (.mk u "BOOLEAN" opt nst rg true) := rfl

theorem coverUpdate_NULL (u : String) (opt : Bool) (nst : Nested) (rg : Option RangeT)
    (cov : Bool) :
    coverUpdate (.mk u "NULL" opt nst rg cov) = .ok (.mk u "NULL" opt nst rg true) := rfl

/-- A field loop over a fully non-allowlisted suffix skips everything: no
value, no mutation, no randomness. -/
theorem fuzzFieldsGo_allowlist_skip_all
    (F : Asn1Container → List Nat → Except String (Option Value × Asn1Container × List Nat))
    (alist : List String) (ca pc : Bool) :
    ∀ (fs : Fields) (rng : List Nat), fs.countAllowed alist = 0 →
      fuzzFieldsGo F (some alist) ca pc fs rng = .ok ([], fs, rng) := by
  intro fs
  induction fs using fields_ind with
  | hnil => intro rng _; rfl
  | hcons k v rest ih =>
    intro rng hc
    simp only [Fields.countAllowed] at hc
    by_cases hm : v.unique_ident ∈ alist
    · rw [if_pos hm] at hc
      omega
    · rw [if_neg hm] at hc
      simp only [fuzzFieldsGo, decideSkip, ok_bind]
      rw [if_pos (by simpa using hm)]
      rw [ih rng (by omega)]
      rfl

/-- The field loop with an allowlist hitting exactly one field: the result
dict contains exactly that field's entry when its recursive call returned a
value, and nothing at all when it returned `None`. -/
theorem fuzzFieldsGo_allowlist_single
    (F : Asn1Container → List Nat → Except String (Option Value × Asn1Container × List Nat))
    (alist : List String) (ca pc : Bool) :
    ∀ (fs : Fields) (i : Nat) (k0 : String) (v0 : Asn1Container) (rng : List Nat)
      (m : List (String × Value)) (fs' : Fields) (r : List Nat),
      fs.firstAllowed alist = some (i, k0, v0) →
      fs.countAllowed alist = 1 →
      fuzzFieldsGo F (some alist) ca pc fs rng = .ok (m, fs', r) →
      ∃ (o : Option Value) (v0' : Asn1Container) (r1 : List Nat),
        F v0 rng = .ok (o, v0', r1) ∧ r = r1 ∧
        m = (match o with | some w => [(k0, w)] | none => []) := by
  intro fs
  induction fs using fields_ind with
  | hnil => intro i k0 v0 rng m fs' r hfa; exact absurd hfa (by simp [Fields.firstAllowed])
  | hcons k v rest ih =>
    intro i k0 v0 rng m fs' r hfa hc h
    simp only [Fields.firstAllowed] at hfa
    simp only [Fields.countAllowed] at hc
    simp only [fuzzFieldsGo, decideSkip, ok_bind] at h
    by_cases hm : v.unique_ident ∈ alist
    · rw [if_pos hm] at hfa
      rw [if_pos hm] at hc
      rw [if_neg (by simpa using hm)] at h
      simp only [Option.some.injEq, Prod.mk.injEq] at hfa
      obtain ⟨-, hk0, hv0⟩ := hfa
      subst hk0
      subst hv0
      cases hF : F v rng with
      | error e => rw [hF] at h; exact absurd h (by simp)
      | ok p =>
        obtain ⟨o, v', r1⟩ := p
        rw [hF] at h
        simp only [ok_bind] at h
        rw [fuzzFieldsGo_allowlist_skip_all F alist ca pc rest r1 (by omega)] at h
        cases o with
        | some w =>
          simp only [ok_bind, Except.ok.injEq, Prod.mk.injEq] at h
          exact ⟨some w, v', r1, rfl, h.2.2.symm, h.1.symm⟩
        | none =>
          simp only [ok_bind, Except.ok.injEq, Prod.mk.injEq] at h
          exact ⟨none, v', r1, rfl, h.2.2.symm, h.1.symm⟩
    · rw [if_neg hm] at hfa
      rw [if_neg hm] at hc
      rw [if_pos (by simpa using hm)] at h
      cases hra : rest.firstAllowed alist with
      | none => rw [hra] at hfa; exact absurd hfa (by simp)
      | some p =>
        obtain ⟨i', k', v'⟩ := p
        rw [hra] at hfa
        simp only [Option.map_some', Option.some.injEq, Prod.mk.injEq] at hfa
        obtain ⟨-, hk0, hv0⟩ := hfa
        subst hk0
        subst hv0
        cases hrest : fuzzFieldsGo F (some alist) ca pc rest rng with
        | error e => rw [hrest] at h; exact absurd h (by simp)
        | ok q =>
          obtain ⟨m1, rest', r'⟩ := q
          rw [hrest] at h
          simp only [ok_bind, Except.ok.injEq, Prod.mk.injEq] at h
          obtain ⟨hm1, -, hr⟩ := h
          obtain ⟨o, v0', r1, hF, hr1, hmm⟩ := ih i' k' v' rng m1 rest' r' hra (by omega) hrest
          exact ⟨o, v0', r1, hF, hr ▸ hr1, hm1 ▸ hmm⟩

/-- A scalar node of kind INTEGER/BOOLEAN/NULL never returns Python `None`
from a successful `fuzz` call. -/
theorem fuzzF_scalar_some (al bl : Option (List String)) (ca : Bool) (msc : Int)
    (f : Nat) (u ty : String) (opt : Bool) (nst : Nested) (rg : Option RangeT) (cov : Bool)
    (rng : List Nat) (o : Option Value) (d : Asn1Container) (r : List Nat)
    (hty : ty = "INTEGER" ∨ ty = "BOOLEAN" ∨ ty = "NULL")
    (h : fuzzF al bl ca msc f (.mk u ty opt nst rg cov) rng = .ok (o, d, r)) :
    ∃ w : Value, o = some w := by
  cases f with
  | zero => exact absurd h (by simp [fuzzF])
  | succ f =>
    rcases hty with hty | hty | hty <;> subst hty <;> simp only [fuzzF] at h
    · cases hfi : fuzzInteger rg rng with
      | error e => rw [hfi] at h; exact absurd h (by simp)
      | ok p =>
        obtain ⟨vi, r'⟩ := p
        rw [hfi] at h
        simp only [ok_bind, coverUpdate_INTEGER, Except.ok.injEq, Prod.mk.injEq] at h
        exact ⟨.vint vi, h.1.symm⟩
    · simp only [pychoice, ok_bind, coverUpdate_BOOLEAN, Except.ok.injEq, Prod.mk.injEq] at h
      exact ⟨_, h.1.symm⟩
    · simp only [coverUpdate_NULL, ok_bind, Except.ok.injEq, Prod.mk.injEq] at h
      exact ⟨_, h.1.symm⟩

/-- C5 (amended): for a SEQUENCE node and an allowlist matching exactly one
of its fields, the returned mapping never contains any other field, and it
contains the allowlisted field exactly when the field's own recursive call
produced a value — which is always the case for INTEGER/BOOLEAN/NULL
fields.  (A CHOICE field with no allowlisted child yields `None` and is
dropped; see the counterexample.)  This holds regardless of `optional`,
`coverage_aware` and `blocklist`. -/
theorem C5_allowlist_exact
    (u : String) (opt : Bool) (fs : Fields) (rg : Option RangeT) (cov : Bool)
    (alist : List String) (bl : Option (List String)) (ca : Bool) (msc : Int)
    (rng : List Nat) (v : Option Value) (d : Asn1Container) (r : List Nat)
    (i : Nat) (k0 : String) (v0 : Asn1Container)
    (hfa : fs.firstAllowed alist = some (i, k0, v0))
    (hcount : fs.countAllowed alist = 1)
    (h : fuzz (.mk u "SEQUENCE" opt (.nmap fs) rg cov) (some alist) bl ca msc rng = .ok (v, d, r)) :
    ∃ m : List (String × Value),
      v = some (.vmap m) ∧ (∀ p ∈ m, p.1 = k0) ∧
      ((v0.asn1_type = "INTEGER" ∨ v0.asn1_type = "BOOLEAN" ∨ v0.asn1_type = "NULL") →
        ∃ w : Value, m = [(k0, w)]) := by
  simp only [fuzz, depth, fuzzF] at h
  cases hfg : fuzzFieldsGo (fuzzF (some alist) bl ca msc (ndepth (.nmap fs)))
      (some alist) ca cov fs rng with
  | error e => rw [hfg] at h; exact absurd h (by simp)
  | ok p =>
    obtain ⟨m, fs', r'⟩ := p
    rw [hfg] at h
    simp only [ok_bind, coverUpdate_SEQUENCE, Except.ok.injEq, Prod.mk.injEq] at h
    obtain ⟨o, v0', r1, hF, -, hmm⟩ :=
      fuzzFieldsGo_allowlist_single _ alist ca cov fs i k0 v0 rng m fs' r' hfa hcount hfg
    refine ⟨m, h.1.symm, ?_, ?_⟩
    · intro p hp
      rw [hmm] at hp
      cases o with
      | none => simp at hp
      | some w =>
        simp only [List.mem_singleton] at hp
        rw [hp]
    · intro hty
      obtain ⟨u0, ty0, o0, n0, rg0, c0⟩ := v0
      obtain ⟨w, hw⟩ := fuzzF_scalar_some (some alist) bl ca msc _ u0 ty0 o0 n0 rg0 c0
        rng o v0' r1 (by simpa [Asn1Container.asn1_type] using hty) hF
      exact ⟨w, by rw [hmm, hw]⟩

theorem getD_mem {α : Type} (l : List α) (i : Nat) (d : α) (hd : d ∈ l) : l.getD i d ∈ l := by
  rw [List.getD_eq_getD_get?]
  cases hg : l.get? i with
  | none => simpa using hd
  | some y => simpa using List.get?_mem hg

theorem pychoice_mem {α : Type} {l : List α} {rng : List Nat} {x : α} {r : List Nat}
    (h : pychoice l rng = .ok (x, r)) : x ∈ l := by
  match l with
  | [] => exact absurd h (by simp [pychoice])
  | a :: as =>
    simp only [pychoice, Except.ok.injEq, Prod.mk.injEq] at h
    rw [← h.1]
    exact getD_mem _ _ _ (List.mem_cons_self a as)

theorem choiceSelect_mem {possible : List String} {rng : List Nat} {k : String} {r : List Nat}
    (h : choiceSelect possible rng = .ok (k, r)) : k ∈ possible := by
  unfold choiceSelect at h
  split at h
  · exact pychoice_mem h
  · cases possible with
    | nil => exact absurd h (by simp)
    | cons a as =>
      simp only [Except.ok.injEq, Prod.mk.injEq] at h
      rw [← h.1]
      exact List.mem_cons_self a as

theorem filterUncovered_length_pos :
    ∀ fs : Fields, fs.allCovered = false → 0 < fs.filterUncovered.length := by
  intro fs
  induction fs using fields_ind with
  | hnil => intro h; exact absurd h (by simp [Fields.allCovered])
  | hcons k v rest ih =>
    intro h
    cases hv : v.fully_covered with
    | true =>
      simp only [Fields.filterUncovered, if_pos hv]
      apply ih
      simpa [Fields.allCovered, hv] using h
    | false =>
      simp [Fields.filterUncovered, hv, Fields.length]

theorem filterUncovered_keys_sub :
    ∀ (fs : Fields) (k : String), k ∈ fs.filterUncovered.keys → k ∈ fs.keys := by
  intro fs
  induction fs using fields_ind with
  | hnil => intro k hk; simpa [Fields.filterUncovered] using hk
  | hcons k0 v rest ih =>
    intro k hk
    cases hv : v.fully_covered with
    | true =>
      rw [Fields.filterUncovered, if_pos hv] at hk
      exact List.mem_cons_of_mem k0 (ih k hk)
    | false =>
      rw [Fields.filterUncovered, if_neg (by simp [hv])] at hk
      simp only [Fields.keys, List.mem_cons] at hk ⊢
      rcases hk with hk | hk
      · exact Or.inl hk
      · exact Or.inr (ih k hk)

theorem filterUncovered_lookup :
    ∀ (fs : Fields) (k : String), (Fields.keys fs).Nodup → k ∈ fs.filterUncovered.keys →
      ∃ ch : Asn1Container, fs.lookup k = some ch ∧ ch.fully_covered = false := by
  intro fs
  induction fs using fields_ind with
  | hnil => intro k _ hk; simp [Fields.filterUncovered, Fields.keys] at hk
  | hcons k0 v rest ih =>
    intro k hnd hk
    simp only [Fields.keys, List.nodup_cons] at hnd
    cases hv : v.fully_covered with
    | true =>
      rw [Fields.filterUncovered, if_pos hv] at hk
      have hkr : k ∈ rest.keys := filterUncovered_keys_sub rest k hk
      have hne : ¬ k0 = k := fun he => hnd.1 (he ▸ hkr)
      obtain ⟨ch, hl, hc⟩ := ih k hnd.2 hk
      refine ⟨ch, ?_, hc⟩
      rw [Fields.lookup, if_neg hne]
      exact hl
    | false =>
      rw [Fields.filterUncovered, if_neg (by simp [hv])] at hk
      simp only [Fields.keys, List.mem_cons] at hk
      rcases hk with hk | hk
      · subst hk
        exact ⟨v, by rw [Fields.lookup, if_pos rfl], hv⟩
      · have hkr : k ∈ rest.keys := filterUncovered_keys_sub rest k hk
        have hne : ¬ k0 = k := fun he => hnd.1 (he ▸ hkr)
        obtain ⟨ch, hl, hc⟩ := ih k hnd.2 hk
        refine ⟨ch, ?_, hc⟩
        rw [Fields.lookup, if_neg hne]
        exact hl

theorem coverUpdate_choiceLike (u ty : String) (opt : Bool) (fs : Fields) (rg : Option RangeT)
    (cov : Bool) (hty : ty = "CHOICE" ∨ ty = "OPEN_TYPE" ∨ ty = "ANY") :
    coverUpdate (.mk u ty opt (.nmap fs) rg cov) =
      .ok (.mk u ty opt (.nmap fs) rg fs.allCovered) := by
  rcases hty with h | h | h <;> subst h <;> rfl

/-- The CHOICE-like arm with `coverage_aware`, no allowlist and at least one
uncovered child always selects an uncovered child. -/
theorem choice_selects_uncovered
    (u ty : String) (opt : Bool) (fs : Fields) (rg : Option RangeT) (cov : Bool)
    (bl : Option (List String)) (msc : Int) (rng : List Nat)
    (v : Option Value) (d : Asn1Container) (r : List Nat)
    (hty : ty = "CHOICE" ∨ ty = "OPEN_TYPE" ∨ ty = "ANY")
    (hnd : (Fields.keys fs).Nodup)
    (hcov : fs.allCovered = false)
    (h : fuzz (.mk u ty opt (.nmap fs) rg cov) none bl true msc rng = .ok (v, d, r)) :
    ∃ (k : String) (ch : Asn1Container) (x : Option Value),
      v = some (.vchoice k x) ∧ fs.lookup k = some ch ∧ ch.fully_covered = false := by
  have hflt : fs.filterUncovered.length > 0 := filterUncovered_length_pos fs hcov
  have harm : ty = "CHOICE" ∨ ty = "OPEN_TYPE" ∨ ty = "ANY" := hty
  rcases hty with hty | hty | hty <;> subst hty <;>
    simp only [fuzz, depth, fuzzF, ite_true, gt_iff_lt, hflt, if_pos] at h <;>
  · cases hcs : choiceSelect fs.filterUncovered.keys rng with
    | error e => rw [hcs] at h; exact absurd h (by simp)
    | ok p =>
      obtain ⟨sk, r0⟩ := p
      rw [hcs] at h
      simp only [ok_bind] at h
      obtain ⟨ch, hlk, hcv⟩ :=
        filterUncovered_lookup fs sk hnd (choiceSelect_mem hcs)
      simp only [hlk] at h
      cases hcf : fuzzF none bl true msc (ndepth (.nmap fs)) ch r0 with
      | error e => rw [hcf] at h; exact absurd h (by simp)
      | ok q =>
        obtain ⟨x, ch', r'⟩ := q
        rw [hcf] at h
        simp only [ok_bind] at h
        rw [coverUpdate_choiceLike _ _ _ _ _ _ (by simp)] at h
        simp only [ok_bind, Except.ok.injEq, Prod.mk.injEq] at h
        exact ⟨sk, ch, x, h.1.symm, hlk, hcv⟩

/-- Three consecutive coverage-aware generations on the three-scalar-children
CHOICE select pairwise distinct children and leave the node fully covered,
whatever the random stream. -/
theorem c8_scenario :
    ∀ (rng0 r1 r2 r3 : List Nat) (d1 d2 d3 : Asn1Container)
      (k1 k2 k3 : String) (x1 x2 x3 : Option Value),
      fuzz c8tree none none true 1 rng0 = .ok (some (.vchoice k1 x1), d1, r1) →
      fuzz d1 none none true 1 r1 = .ok (some (.vchoice k2 x2), d2, r2) →
      fuzz d2 none none true 1 r2 = .ok (some (.vchoice k3 x3), d3, r3) →
      k1 ≠ k2 ∧ k1 ≠ k3 ∧ k2 ≠ k3 ∧ d3.fully_covered = true := by
  intro rng0 r1 r2 r3 d1 d2 d3 k1 k2 k3 x1 x2 x3 h1 h2 h3
  have hn : rng0.headI % 3 = 0 ∨ rng0.headI % 3 = 1 ∨ rng0.headI % 3 = 2 := by omega
  rcases hn with hn | hn | hn
  · simp [fuzz, depth, ndepth, fdepth, c8tree, fuzzF, choiceSelect, pychoice,
      Fields.filterUncovered, Fields.keys, Fields.length, Fields.lookup, Fields.updateKey,
      Fields.allCovered, Asn1Container.fully_covered, hn, coverUpdate,
      fuzzInteger, randrange, randrangeStep] at h1
    obtain ⟨⟨hk1, hx1⟩, hd1, hr1⟩ := h1
    subst hk1; subst hx1; subst hd1; subst hr1
    have hm : rng0.tail.tail.headI % 2 = 0 ∨ rng0.tail.tail.headI % 2 = 1 := by omega
    rcases hm with hm | hm
    · simp [fuzz, depth, ndepth, fdepth, fuzzF, choiceSelect, pychoice,
        Fields.filterUncovered, Fields.keys, Fields.length, Fields.lookup, Fields.updateKey,
        Fields.allCovered, Asn1Container.fully_covered, hm, coverUpdate,
        fuzzInteger, randrange, randrangeStep] at h2
      obtain ⟨⟨hk2, hx2⟩, hd2, hr2⟩ := h2
      subst hk2; subst hx2; subst hd2; subst hr2
      simp [fuzz, depth, ndepth, fdepth, fuzzF, choiceSelect, pychoice,
        Fields.filterUncovered, Fields.keys, Fields.length, Fields.lookup, Fields.updateKey,
        Fields.allCovered, Asn1Container.fully_covered, coverUpdate,
        fuzzInteger, randrange, randrangeStep] at h3
      obtain ⟨⟨hk3, hx3⟩, hd3, hr3⟩ := h3
      subst hk3; subst hd3
      exact ⟨by decide, by decide, by decide, rfl⟩
    · simp [fuzz, depth, ndepth, fdepth, fuzzF, choiceSelect, pychoice,
        Fields.filterUncovered, Fields.keys, Fields.length, Fields.lookup, Fields.updateKey,
        Fields.allCovered, Asn1Container.fully_covered, hm, coverUpdate,
        fuzzInteger, randrange, randrangeStep] at h2
      obtain ⟨⟨hk2, hx2⟩, hd2, hr2⟩ := h2
      subst hk2; subst hx2; subst hd2; subst hr2
      simp [fuzz, depth, ndepth, fdepth, fuzzF, choiceSelect, pychoice,
        Fields.filterUncovered, Fields.keys, Fields.length, Fields.lookup, Fields.updateKey,
        Fields.allCovered, Asn1Container.fully_covered, coverUpdate,
        fuzzInteger, randrange, randrangeStep] at h3
      obtain ⟨⟨hk3, hx3⟩, hd3, hr3⟩ := h3
      subst hk3; subst hd3
      exact ⟨by decide, by decide, by decide, rfl⟩
  · simp [fuzz, depth, ndepth, fdepth, c8tree, fuzzF, choiceSelect, pychoice,
      Fields.filterUncovered, Fields.keys, Fields.length, Fields.lookup, Fields.updateKey,
      Fields.allCovered, Asn1Container.fully_covered, hn, coverUpdate,
      fuzzInteger, randrange, randrangeStep] at h1
    obtain ⟨⟨hk1, hx1⟩, hd1, hr1⟩ := h1
    subst hk1; subst hx1; subst hd1; subst hr1
    have hm : rng0.tail.headI % 2 = 0 ∨ rng0.tail.headI % 2 = 1 := by omega
    rcases hm with hm | hm
    · simp [fuzz, depth, ndepth, fdepth, fuzzF, choiceSelect, pychoice,
        Fields.filterUncovered, Fields.keys, Fields.length, Fields.lookup, Fields.updateKey,
        Fields.allCovered, Asn1Container.fully_covered, hm, coverUpdate,
        fuzzInteger, randrange, randrangeStep] at h2
      obtain ⟨⟨hk2, hx2⟩, hd2, hr2⟩ := h2
      subst hk2; subst hx2; subst hd2; subst hr2
      simp [fuzz, depth, ndepth, fdepth, fuzzF, choiceSelect, pychoice,
        Fields.filterUncovered, Fields.keys, Fields.length, Fields.lookup, Fields.updateKey,
        Fields.allCovered, Asn1Container.fully_covered, coverUpdate,
        fuzzInteger, randrange, randrangeStep] at h3
      obtain ⟨⟨hk3, hx3⟩, hd3, hr3⟩ := h3
      subst hk3; subst hd3
      exact ⟨by decide, by decide, by decide, rfl⟩
    · simp [fuzz, depth, ndepth, fdepth, fuzzF, choiceSelect, pychoice,
        Fields.filterUncovered, Fields.keys, Fields.length, Fields.lookup, Fields.updateKey,
        Fields.allCovered, Asn1Container.fully_covered, hm, coverUpdate,
        fuzzInteger, randrange, randrangeStep] at h2
      obtain ⟨⟨hk2, hx2⟩, hd2, hr2⟩ := h2
      subst hk2; subst hx2; subst hd2; subst hr2
      simp [fuzz, depth, ndepth, fdepth, fuzzF, choiceSelect, pychoice,
        Fields.filterUncovered, Fields.keys, Fields.length, Fields.lookup, Fields.updateKey,
        Fields.allCovered, Asn1Container.fully_covered, coverUpdate,
        fuzzInteger, randrange, randrangeStep] at h3
      obtain ⟨⟨hk3, hx3⟩, hd3, hr3⟩ := h3
      subst hk3; subst hd3
      exact ⟨by decide, by decide, by decide, rfl⟩
  · simp [fuzz, depth, ndepth, fdepth, c8tree, fuzzF, choiceSelect, pychoice,
      Fields.filterUncovered, Fields.keys, Fields.length, Fields.lookup, Fields.updateKey,
      Fields.allCovered, Asn1Container.fully_covered, hn, coverUpdate,
      fuzzInteger, randrange, randrangeStep] at h1
    obtain ⟨⟨hk1, hx1⟩, hd1, hr1⟩ := h1
    subst hk1; subst hx1; subst hd1; subst hr1
    have hm : rng0.tail.tail.headI % 2 = 0 ∨ rng0.tail.tail.headI % 2 = 1 := by omega
    rcases hm with hm | hm
    · simp [fuzz, depth, ndepth, fdepth, fuzzF, choiceSelect, pychoice,
        Fields.filterUncovered, Fields.keys, Fields.length, Fields.lookup, Fields.updateKey,
        Fields.allCovered, Asn1Container.fully_covered, hm, coverUpdate,
        fuzzInteger, randrange, randrangeStep] at h2
      obtain ⟨⟨hk2, hx2⟩, hd2, hr2⟩ := h2
      subst hk2; subst hx2; subst hd2; subst hr2
      simp [fuzz, depth, ndepth, fdepth, fuzzF, choiceSelect, pychoice,
        Fields.filterUncovered, Fields.keys, Fields.length, Fields.lookup, Fields.updateKey,
        Fields.allCovered, Asn1Container.fully_covered, coverUpdate,
        fuzzInteger, randrange, randrangeStep] at h3
      obtain ⟨⟨hk3, hx3⟩, hd3, hr3⟩ := h3
      subst hk3; subst hd3
      exact ⟨by decide, by decide, by decide, rfl⟩
    · simp [fuzz, depth, ndepth, fdepth, fuzzF, choiceSelect, pychoice,
        Fields.filterUncovered, Fields.keys, Fields.length, Fields.lookup, Fields.updateKey,
        Fields.allCovered, Asn1Container.fully_covered, hm, coverUpdate,
        fuzzInteger, randrange, randrangeStep] at h2
      obtain ⟨⟨hk2, hx2⟩, hd2, hr2⟩ := h2
      subst hk2; subst hx2; subst hd2; subst hr2
      simp [fuzz, depth, ndepth, fdepth, fuzzF, choiceSelect, pychoice,
        Fields.filterUncovered, Fields.keys, Fields.length, Fields.lookup, Fields.updateKey,
        Fields.allCovered, Asn1Container.fully_covered, coverUpdate,
        fuzzInteger, randrange, randrangeStep] at h3
      obtain ⟨⟨hk3, hx3⟩, hd3, hr3⟩ := h3
      subst hk3; subst hd3
      exact ⟨by decide, by decide, by decide, rfl⟩

/-- C8: with `coverage_aware=True` and no allowlist, a CHOICE/OPEN-TYPE/ANY
node having at least one child whose covered flag is false always selects a
not-yet-covered child (uncovered-first policy); consequently, on the
three-scalar-children CHOICE `{A: BOOLEAN, B: NULL, C: INTEGER(0,1)}`,
three consecutive calls select three pairwise distinct children and leave
the node fully covered — no already-covered child is repeated before
exhaustion. -/
theorem C8_choice_uncovered_first :
    (∀ (u ty : String) (opt : Bool) (fs : Fields) (rg : Option RangeT) (cov : Bool)
      (bl : Option (List String)) (msc : Int) (rng : List Nat)
      (v : Option Value) (d : Asn1Container) (r : List Nat),
      ty = "CHOICE" ∨ ty = "OPEN_TYPE" ∨ ty = "ANY" →
      (Fields.keys fs).Nodup →
      fs.allCovered = false →
      fuzz (.mk u ty opt (.nmap fs) rg cov) none bl true msc rng = .ok (v, d, r) →
      ∃ (k : String) (ch : Asn1Container) (x : Option Value),
        v = some (.vchoice k x) ∧ fs.lookup k = some ch ∧ ch.fully_covered = false) ∧
    (∀ (rng0 r1 r2 r3 : List Nat) (d1 d2 d3 : Asn1Container)
      (k1 k2 k3 : String) (x1 x2 x3 : Option Value),
      fuzz c8tree none none true 1 rng0 = .ok (some (.vchoice k1 x1), d1, r1) →
      fuzz d1 none none true 1 r1 = .ok (some (.vchoice k2 x2), d2, r2) →
      fuzz d2 none none true 1 r2 = .ok (some (.vchoice k3 x3), d3, r3) →
      k1 ≠ k2 ∧ k1 ≠ k3 ∧ k2 ≠ k3 ∧ d3.fully_covered = true) :=
  ⟨choice_selects_uncovered, c8_scenario⟩

/-- C8 witness: the uncovered-first selection on `c8tree` with draw 1 picks
`B`, an uncovered child; and on the all-zero stream the three consecutive
calls pick `A`, `B`, `C`, ending fully covered. -/
theorem C8_witness :
    (∃ (k : String) (ch : Asn1Container) (x : Option Value),
      (some (Value.vchoice "B" (some (.vint 0))) : Option Value) = some (.vchoice k x) ∧
      Fields.lookup (.fcons "A" (.mk "A" "BOOLEAN" false .nnone none false)
        (.fcons "B" (.mk "B" "NULL" false .nnone none false)
          (.fcons "C" (.mk "C" "INTEGER" false .nnone (some (0, some 1, none)) false) .fnil)))
        k = some ch ∧ ch.fully_covered = false) ∧
    ("A" : String) ≠ "B" ∧ ("A" : String) ≠ "C" ∧ ("B" : String) ≠ "C" ∧
    (Asn1Container.mk "root" "CHOICE" false
      (.nmap (.fcons "A" (.mk "A" "BOOLEAN" false .nnone none true)
        (.fcons "B" (.mk "B" "NULL" false .nnone none true)
          (.fcons "C" (.mk "C" "INTEGER" false .nnone (some (0, some 1, none)) true) .fnil))))
      none true).fully_covered = true := by
  constructor
  · exact C8_choice_uncovered_first.1 "root" "CHOICE" false
      (.fcons "A" (.mk "A" "BOOLEAN" false .nnone none false)
        (.fcons "B" (.mk "B" "NULL" false .nnone none false)
          (.fcons "C" (.mk "C" "INTEGER" false .nnone (some (0, some 1, none)) false) .fnil)))
      none false none 1 [1]
      (some (.vchoice "B" (some (.vint 0))))
      (.mk "root" "CHOICE" false
        (.nmap (.fcons "A" (.mk "A" "BOOLEAN" false .nnone none false)
          (.fcons "B" (.mk "B" "NULL" false .nnone none true)
            (.fcons "C" (.mk "C" "INTEGER" false .nnone (some (0, some 1, none)) false) .fnil))))
        none false) []
      (Or.inl rfl) (by decide) rfl rfl
  · exact C8_choice_uncovered_first.2 [] [] [] [] _ _ _ "A" "B" "C"
      (some (.vbool true)) (some (.vint 0)) (some (.vint 0)) rfl rfl rfl

/-- C5 witness: the SEQUENCE with fields `g` (INTEGER, identity `i`) and `f`
(CHOICE, identity `fid`), allowlist `{i}`: the result contains exactly the
field `g`. -/
theorem C5_witness :
    ∃ m : List (String × Value),
      (some (Value.vmap [("g", .vint 5)]) : Option Value) = some (.vmap m) ∧
      (∀ p ∈ m, p.1 = "g") ∧
      ((intNode.asn1_type = "INTEGER" ∨ intNode.asn1_type = "BOOLEAN" ∨
          intNode.asn1_type = "NULL") → ∃ w : Value, m = [("g", w)]) := by
  refine C5_allowlist_exact "s52" false (.fcons "g" intNode (.fcons "f" c5choice .fnil))
    none false ["i"] none false 1 [2] (some (.vmap [("g", .vint 5)]))
    (.mk "s52" "SEQUENCE" false
      (.nmap (.fcons "g" (.mk "i" "INTEGER" false .nnone (some (3, some 10, none)) true)
        (.fcons "f" c5choice .fnil))) none false) [] 0 "g" intNode rfl rfl rfl

theorem frameOK_refl_all :
    (∀ c, frameOK c c = true) ∧ (∀ nst, frameOKN nst nst = true) ∧
    (∀ fs, frameOKF fs fs = true) := by
  apply tree_ind
  · intro u t o nst rg cov hQ
    simp [frameOK, hQ]
  · rfl
  · intro fs h
    simpa [frameOKN] using h
  · intro c h
    simpa [frameOKN] using h
  · intro ls
    simp [frameOKN]
  · intro fid
    simp [frameOKN]
  · rfl
  · intro k v rest hv hr
    simp [frameOKF, hv, hr]

theorem covLE_refl_all :
    (∀ c, covLE c c = true) ∧ (∀ nst, covLEN nst nst = true) ∧
    (∀ fs, covLEF fs fs = true) := by
  apply tree_ind
  · intro u t o nst rg cov hQ
    cases cov <;> simp [covLE, hQ]
  · rfl
  · intro fs h
    simpa [covLEN] using h
  · intro c h
    simpa [covLEN] using h
  · intro ls
    simp [covLEN]
  · intro fid
    simp [covLEN]
  · rfl
  · intro k v rest hv hr
    simp [covLEF, hv, hr]

theorem rangeBumped_not_bumpable {r1 r2 r3 : Option RangeT}
    (h1 : rangeBumped r1 r2 = true) (h2 : rangeBumped r2 r3 = true) : False := by
  cases r1 with
  | none => simp [rangeBumped] at h1
  | some p1 =>
    obtain ⟨m1, M1, s1⟩ := p1
    cases r2 with
    | none => simp [rangeBumped] at h1
    | some p2 =>
      obtain ⟨m2, M2, s2⟩ := p2
      cases r3 with
      | none => simp [rangeBumped] at h2
      | some p3 =>
        obtain ⟨m3, M3, s3⟩ := p3
        simp only [rangeBumped, Bool.and_eq_true, decide_eq_true_eq] at h1 h2
        omega

theorem frameOK_trans_all :
    (∀ a : Asn1Container, ∀ b c, frameOK a b = true → frameOK b c = true → frameOK a c = true) ∧
    (∀ n1 : Nested, ∀ n2 n3, frameOKN n1 n2 = true → frameOKN n2 n3 = true →
      frameOKN n1 n3 = true) ∧
    (∀ f1 : Fields, ∀ f2 f3, frameOKF f1 f2 = true → frameOKF f2 f3 = true →
      frameOKF f1 f3 = true) := by
  apply tree_ind
  · intro u t o nst rg cov hQ b c h1 h2
    obtain ⟨u2, t2, o2, n2, rg2, cov2⟩ := b
    obtain ⟨u3, t3, o3, n3, rg3, cov3⟩ := c
    simp only [frameOK, Bool.and_eq_true, Bool.or_eq_true, decide_eq_true_eq] at h1 h2 ⊢
    obtain ⟨⟨⟨⟨hu1, ht1⟩, ho1⟩, hn1⟩, hr1⟩ := h1
    obtain ⟨⟨⟨⟨hu2, ht2⟩, ho2⟩, hn2⟩, hr2⟩ := h2
    subst hu1; subst ht1; subst ho1; subst hu2; subst ht2; subst ho2
    refine ⟨⟨⟨⟨rfl, rfl⟩, rfl⟩, hQ n2 n3 hn1 hn2⟩, ?_⟩
    rcases hr1 with hr1 | ⟨hty, hb1⟩
    · subst hr1
      exact hr2
    · rcases hr2 with hr2 | ⟨-, hb2⟩
      · exact Or.inr ⟨hty, hr2 ▸ hb1⟩
      · exact absurd hb2 (fun hb2 => rangeBumped_not_bumpable hb1 hb2)
  · intro n2 n3 h1 h2
    cases n2 <;> cases n3 <;> simp_all [frameOKN]
  · intro fs ih n2 n3 h1 h2
    cases n2 <;> cases n3 <;> simp_all [frameOKN]
    all_goals exact ih _ _ h1 h2
  · intro a ih n2 n3 h1 h2
    cases n2 <;> cases n3 <;> simp_all [frameOKN]
    all_goals exact ih _ _ h1 h2
  · intro ls n2 n3 h1 h2
    cases n2 <;> cases n3 <;> simp_all [frameOKN]
  · intro fid n2 n3 h1 h2
    cases n2 <;> cases n3 <;> simp_all [frameOKN]
  · intro f2 f3 h1 h2
    cases f2 <;> cases f3 <;> simp_all [frameOKF]
  · intro k v rest ihv ihr f2 f3 h1 h2
    cases f2 with
    | fnil => simp_all [frameOKF]
    | fcons k2 v2 r2 =>
      cases f3 with
      | fnil => simp_all [frameOKF]
      | fcons k3 v3 r3 =>
        simp only [frameOKF, Bool.and_eq_true, decide_eq_true_eq] at h1 h2 ⊢
        exact ⟨⟨h1.1.1.trans h2.1.1, ihv v2 v3 h1.1.2 h2.1.2⟩, ihr r2 r3 h1.2 h2.2⟩

theorem covLE_trans_all :
    (∀ a : Asn1Container, ∀ b c, covLE a b = true → covLE b c = true → covLE a c = true) ∧
    (∀ n1 : Nested, ∀ n2 n3, covLEN n1 n2 = true → covLEN n2 n3 = true → covLEN n1 n3 = true) ∧
    (∀ f1 : Fields, ∀ f2 f3, covLEF f1 f2 = true → covLEF f2 f3 = true →
      covLEF f1 f3 = true) := by
  apply tree_ind
  · intro u t o nst rg cov hQ b c h1 h2
    obtain ⟨u2, t2, o2, n2, rg2, cov2⟩ := b
    obtain ⟨u3, t3, o3, n3, rg3, cov3⟩ := c
    simp only [covLE, Bool.and_eq_true, Bool.or_eq_true, Bool.not_eq_true'] at h1 h2 ⊢
    refine ⟨?_, hQ n2 n3 h1.2 h2.2⟩
    rcases h1.1 with hc | hc
    · exact Or.inl hc
    · rcases h2.1 with hc2 | hc2
      · exact absurd hc2 (by simp [hc])
      · exact Or.inr hc2
  · intro n2 n3 h1 h2
    cases n2 <;> cases n3 <;> simp_all [covLEN]
  · intro fs ih n2 n3 h1 h2
    cases n2 <;> cases n3 <;> simp_all [covLEN]
    all_goals exact ih _ _ h1 h2
  · intro a ih n2 n3 h1 h2
    cases n2 <;> cases n3 <;> simp_all [covLEN]
    all_goals exact ih _ _ h1 h2
  · intro ls n2 n3 h1 h2
    cases n2 <;> cases n3 <;> simp_all [covLEN]
  · intro fid n2 n3 h1 h2
    cases n2 <;> cases n3 <;> simp_all [covLEN]
  · intro f2 f3 h1 h2
    cases f2 <;> cases f3 <;> simp_all [covLEF]
  · intro k v rest ihv ihr f2 f3 h1 h2
    cases f2 with
    | fnil => simp_all [covLEF]
    | fcons k2 v2 r2 =>
      cases f3 with
      | fnil => simp_all [covLEF]
      | fcons k3 v3 r3 =>
        simp only [covLEF, Bool.and_eq_true, decide_eq_true_eq] at h1 h2 ⊢
        exact ⟨⟨h1.1.1.trans h2.1.1, ihv v2 v3 h1.1.2 h2.1.2⟩, ihr r2 r3 h1.2 h2.2⟩

theorem covLE_flag {a b : Asn1Container} (h : covLE a b = true) :
    a.fully_covered = true → b.fully_covered = true := by
  obtain ⟨u1, t1, o1, n1, rg1, c1⟩ := a
  obtain ⟨u2, t2, o2, n2, rg2, c2⟩ := b
  simp only [covLE, Bool.and_eq_true, Bool.or_eq_true, Bool.not_eq_true'] at h
  intro hc
  simp only [Asn1Container.fully_covered] at hc ⊢
  rcases h.1 with h1 | h1
  · rw [hc] at h1
    exact absurd h1 (by simp)
  · exact h1

theorem covLE_nested {a b : Asn1Container} (h : covLE a b = true) :
    covLEN a.nested b.nested = true := by
  obtain ⟨u1, t1, o1, n1, rg1, c1⟩ := a
  obtain ⟨u2, t2, o2, n2, rg2, c2⟩ := b
  simp only [covLE, Bool.and_eq_true] at h
  exact h.2

theorem goodCov_parts {u ty : String} {o : Bool} {nst : Nested} {rg : Option RangeT} {cov : Bool}
    (h : goodCov (.mk u ty o nst rg cov) = true) :
    (cov = true → childFlagsOK ty nst = true) ∧ goodCovN nst = true := by
  simp only [goodCov, Bool.and_eq_true, Bool.or_eq_true, Bool.not_eq_true'] at h
  refine ⟨fun hc => ?_, h.2⟩
  rcases h.1 with h1 | h1
  · rw [hc] at h1
    exact absurd h1 (by simp)
  · exact h1

theorem goodCov_mk (u ty : String) (o : Bool) (nst : Nested) (rg : Option RangeT) (cov : Bool)
    (h1 : cov = true → childFlagsOK ty nst = true) (h2 : goodCovN nst = true) :
    goodCov (.mk u ty o nst rg cov) = true := by
  simp only [goodCov, Bool.and_eq_true, Bool.or_eq_true, Bool.not_eq_true']
  refine ⟨?_, h2⟩
  cases cov
  · exact Or.inl rfl
  · exact Or.inr (h1 rfl)

theorem allCovered_mono :
    ∀ f1 f2 : Fields, covLEF f1 f2 = true → f1.allCovered = true → f2.allCovered = true := by
  intro f1
  induction f1 using fields_ind with
  | hnil =>
    intro f2 h1 h2
    cases f2 <;> simp_all [covLEF, Fields.allCovered]
  | hcons k v rest ih =>
    intro f2 h1 h2
    cases f2 with
    | fnil => simp_all [covLEF]
    | fcons k2 v2 r2 =>
      simp only [covLEF, Bool.and_eq_true, decide_eq_true_eq] at h1
      simp only [Fields.allCovered, Bool.and_eq_true] at h2 ⊢
      exact ⟨covLE_flag h1.1.2 h2.1, ih r2 h1.2 h2.2⟩

theorem goodCovF_parts {k : String} {v : Asn1Container} {rest : Fields}
    (h : goodCovF (.fcons k v rest) = true) : goodCov v = true ∧ goodCovF rest = true := by
  simpa [goodCovF, Bool.and_eq_true] using h

theorem lookup_updateKey_rel :
    ∀ (fs : Fields) (k : String) (ch : Asn1Container), fs.lookup k = some ch →
      ∀ x : Asn1Container,
        (frameOK ch x = true → frameOKF fs (fs.updateKey k x) = true) ∧
        (covLE ch x = true → covLEF fs (fs.updateKey k x) = true) ∧
        (goodCovF fs = true → goodCov ch = true) ∧
        (goodCovF fs = true → goodCov x = true → goodCovF (fs.updateKey k x) = true) := by
  intro fs
  induction fs using fields_ind with
  | hnil => intro k ch h; simp [Fields.lookup] at h
  | hcons k0 v rest ih =>
    intro k ch h x
    simp only [Fields.lookup] at h
    by_cases hk : k0 = k
    · rw [if_pos hk] at h
      obtain rfl : v = ch := by simpa using h
      refine ⟨fun hf => ?_, fun hc => ?_, fun hg => (goodCovF_parts hg).1, fun hg hx => ?_⟩
      · simp only [Fields.updateKey, if_pos hk, frameOKF, Bool.and_eq_true, decide_eq_true_eq]
        exact ⟨⟨trivial, hf⟩, frameOK_refl_all.2.2 rest⟩
      · simp only [Fields.updateKey, if_pos hk, covLEF, Bool.and_eq_true, decide_eq_true_eq]
        exact ⟨⟨trivial, hc⟩, covLE_refl_all.2.2 rest⟩
      · simp only [Fields.updateKey, if_pos hk, goodCovF, Bool.and_eq_true]
        exact ⟨hx, (goodCovF_parts hg).2⟩
    · rw [if_neg hk] at h
      obtain ⟨hfr, hcr, hgr, hgu⟩ := ih k ch h x
      refine ⟨fun hf => ?_, fun hc => ?_, fun hg => hgr (goodCovF_parts hg).2, fun hg hx => ?_⟩
      · simp only [Fields.updateKey, if_neg hk, frameOKF, Bool.and_eq_true, decide_eq_true_eq]
        exact ⟨⟨trivial, frameOK_refl_all.1 v⟩, hfr hf⟩
      · simp only [Fields.updateKey, if_neg hk, covLEF, Bool.and_eq_true, decide_eq_true_eq]
        exact ⟨⟨trivial, covLE_refl_all.1 v⟩, hcr hc⟩
      · simp only [Fields.updateKey, if_neg hk, goodCovF, Bool.and_eq_true]
        exact ⟨(goodCovF_parts hg).1, hgu (goodCovF_parts hg).2 hx⟩

theorem firstAllowed_updateAt_rel :
    ∀ (fs : Fields) (alist : List String) (i : Nat) (k0 : String) (v0 : Asn1Container),
      fs.firstAllowed alist = some (i, k0, v0) →
      ∀ x : Asn1Container,
        (frameOK v0 x = true → frameOKF fs (fs.updateAt i x) = true) ∧
        (covLE v0 x = true → covLEF fs (fs.updateAt i x) = true) ∧
        (goodCovF fs = true → goodCov v0 = true) ∧
        (goodCovF fs = true → goodCov x = true → goodCovF (fs.updateAt i x) = true) := by
  intro fs
  induction fs using fields_ind with
  | hnil => intro alist i k0 v0 h; simp [Fields.firstAllowed] at h
  | hcons k v rest ih =>
    intro alist i k0 v0 h x
    simp only [Fields.firstAllowed] at h
    by_cases hm : v.unique_ident ∈ alist
    · rw [if_pos hm] at h
      simp only [Option.some.injEq, Prod.mk.injEq] at h
      obtain ⟨hi, -, hv0⟩ := h
      subst hv0
      rw [← hi]
      refine ⟨fun hf => ?_, fun hc => ?_, fun hg => (goodCovF_parts hg).1, fun hg hx => ?_⟩
      · simp only [Fields.updateAt, frameOKF, Bool.and_eq_true, decide_eq_true_eq]
        exact ⟨⟨trivial, hf⟩, frameOK_refl_all.2.2 rest⟩
      · simp only [Fields.updateAt, covLEF, Bool.and_eq_true, decide_eq_true_eq]
        exact ⟨⟨trivial, hc⟩, covLE_refl_all.2.2 rest⟩
      · simp only [Fields.updateAt, goodCovF, Bool.and_eq_true]
        exact ⟨hx, (goodCovF_parts hg).2⟩
    · rw [if_neg hm] at h
      cases hra : rest.firstAllowed alist with
      | none => rw [hra] at h; exact absurd h (by simp)
      | some p =>
        obtain ⟨i', k', v'⟩ := p
        rw [hra] at h
        simp only [Option.map_some', Option.some.injEq, Prod.mk.injEq] at h
        obtain ⟨hi, -, hv0⟩ := h
        subst hv0
        rw [← hi]
        obtain ⟨hfr, hcr, hgr, hgu⟩ := ih alist i' k' v' hra x
        refine ⟨fun hf => ?_, fun hc => ?_, fun hg => hgr (goodCovF_parts hg).2,
          fun hg hx => ?_⟩
        · simp only [Fields.updateAt, frameOKF, Bool.and_eq_true, decide_eq_true_eq]
          exact ⟨⟨trivial, frameOK_refl_all.1 v⟩, hfr hf⟩
        · simp only [Fields.updateAt, covLEF, Bool.and_eq_true, decide_eq_true_eq]
          exact ⟨⟨trivial, covLE_refl_all.1 v⟩, hcr hc⟩
        · simp only [Fields.updateAt, goodCovF, Bool.and_eq_true]
          exact ⟨(goodCovF_parts hg).1, hgu (goodCovF_parts hg).2 hx⟩

theorem frameOK_mk_same (u ty : String) (o : Bool) (rg : Option RangeT) (cov cov' : Bool)
    (n1 n2 : Nested) (hn : frameOKN n1 n2 = true) :
    frameOK (.mk u ty o n1 rg cov) (.mk u ty o n2 rg cov') = true := by
  simp [frameOK, hn]

/-- The common shape of every scalar (and unknown-kind) arm: the node is
returned with only its flag set to true. -/
theorem step_flag_true (u ty : String) (o : Bool) (nst : Nested) (rg : Option RangeT) (cov : Bool)
    (hcf : childFlagsOK ty nst = true) :
    frameOK (.mk u ty o nst rg cov) (.mk u ty o nst rg true) = true ∧
    (goodCov (.mk u ty o nst rg cov) = true →
      covLE (.mk u ty o nst rg cov) (.mk u ty o nst rg true) = true ∧
      goodCov (.mk u ty o nst rg true) = true) := by
  refine ⟨frameOK_mk_same u ty o rg cov true nst nst (frameOK_refl_all.2.1 nst), fun hg => ?_⟩
  obtain ⟨-, hgn⟩ := goodCov_parts hg
  constructor
  · simp only [covLE, Bool.and_eq_true]
    exact ⟨by cases cov <;> simp, covLE_refl_all.2.1 nst⟩
  · exact goodCov_mk u ty o nst rg true (fun _ => hcf) hgn

theorem childFlagsOK_other (ty : String) (nst : Nested)
    (h1 : ty ≠ "SEQUENCE OF") (h2 : ty ≠ "CHOICE") (h3 : ty ≠ "OPEN_TYPE") (h4 : ty ≠ "ANY")
    (h5 : ty ≠ "SEQUENCE") : childFlagsOK ty nst = true := by
  unfold childFlagsOK
  split
  · exact absurd rfl h1
  · exact absurd rfl h2
  · exact absurd rfl h3
  · exact absurd rfl h4
  · exact absurd rfl h5
  · rfl

theorem coverUpdate_other (u ty : String) (o : Bool) (nst : Nested) (rg : Option RangeT)
    (cov : Bool) (h1 : ty ≠ "SEQUENCE OF") (h2 : ty ≠ "CHOICE") (h3 : ty ≠ "OPEN_TYPE")
    (h4 : ty ≠ "ANY") (h5 : ty ≠ "SEQUENCE") :
    coverUpdate (.mk u ty o nst rg cov) = .ok (.mk u ty o nst rg true) := by
  rw [coverUpdate.eq_def]
  split
  simp_all

/-- What `seqOfCount` does to the stored range: it is either unchanged or
bumped from `(0, None, s)` to `(1, None, s)`. -/
theorem seqOfCount_range {rg : Option RangeT} {cov : Bool} {msc n : Int}
    {rng r0 : List Nat} {rg' : Option RangeT}
    (h : seqOfCount rg cov msc rng = .ok (n, rg', r0)) :
    rg' = rg ∨ rangeBumped rg rg' = true := by
  match rg with
  | none =>
    simp only [seqOfCount] at h
    split at h
    · cases hr : randrange 1 msc rng with
      | error e => rw [hr] at h; exact absurd h (by simp)
      | ok p =>
        rw [hr] at h
        cases p
        simp only [ok_bind, Except.ok.injEq, Prod.mk.injEq] at h
        exact Or.inl h.2.1.symm
    · simp only [Except.ok.injEq, Prod.mk.injEq] at h
      exact Or.inl h.2.1.symm
  | some (m, none, s) =>
    simp only [seqOfCount] at h
    by_cases hm : cov = false ∧ m = 0
    · rw [if_pos hm] at h
      split at h
      · cases hr : randrange (1 : Int) (max 1 msc) rng with
        | error e =>
          rw [hr] at h
          exact absurd h (by simp)
        | ok p =>
          rw [hr] at h
          cases p
          simp only [ok_bind, Except.ok.injEq, Prod.mk.injEq] at h
          refine Or.inr ?_
          rw [← h.2.1, hm.2]
          simp [rangeBumped]
      · simp only [Except.ok.injEq, Prod.mk.injEq] at h
        refine Or.inr ?_
        rw [← h.2.1, hm.2]
        simp [rangeBumped]
    · rw [if_neg hm] at h
      split at h
      · cases hr : randrange m (max m msc) rng with
        | error e =>
          rw [hr] at h
          exact absurd h (by simp)
        | ok p =>
          rw [hr] at h
          cases p
          simp only [ok_bind, Except.ok.injEq, Prod.mk.injEq] at h
          exact Or.inl h.2.1.symm
      · simp only [Except.ok.injEq, Prod.mk.injEq] at h
        exact Or.inl h.2.1.symm
  | some (m, some M, s) =>
    simp only [seqOfCount] at h
    cases hr : better_randrange (if m = 0 ∧ cov = false then max (m + s.getD 1) msc else m)
        (min M (max (m + s.getD 1) msc)) (s.getD 1) rng with
    | error e => rw [hr] at h; exact absurd h (by simp)
    | ok p =>
      rw [hr] at h
      cases p
      simp only [ok_bind, Except.ok.injEq, Prod.mk.injEq] at h
      exact Or.inl h.2.1.symm

theorem fieldsGo_master
    (F : Asn1Container → List Nat → Except String (Option Value × Asn1Container × List Nat))
    (al2 : Option (List String)) (ca2 pc : Bool)
    (HF : ∀ c rng v d r, F c rng = .ok (v, d, r) →
      frameOK c d = true ∧ (goodCov c = true → covLE c d = true ∧ goodCov d = true)) :
    ∀ (fs : Fields) (rng : List Nat) (m : List (String × Value)) (fs' : Fields) (r : List Nat),
      fuzzFieldsGo F al2 ca2 pc fs rng = .ok (m, fs', r) →
      frameOKF fs fs' = true ∧
      (goodCovF fs = true → covLEF fs fs' = true ∧ goodCovF fs' = true) := by
  intro fs
  induction fs using fields_ind with
  | hnil =>
    intro rng m fs' r h
    simp only [fuzzFieldsGo, Except.ok.injEq, Prod.mk.injEq] at h
    rw [← h.2.1]
    exact ⟨rfl, fun _ => ⟨rfl, rfl⟩⟩
  | hcons k v rest ih =>
    intro rng m fs' r h
    simp only [fuzzFieldsGo] at h
    cases hds : decideSkip al2 ca2 pc v rng with
    | error e => rw [hds] at h; exact absurd h (by simp)
    | ok p =>
      obtain ⟨skip, r0⟩ := p
      rw [hds] at h
      simp only [ok_bind] at h
      cases skip with
      | true =>
        simp only [if_true] at h
        cases hrest : fuzzFieldsGo F al2 ca2 pc rest r0 with
        | error e => rw [hrest] at h; exact absurd h (by simp)
        | ok q =>
          obtain ⟨m1, rest', r'⟩ := q
          rw [hrest] at h
          simp only [ok_bind, Except.ok.injEq, Prod.mk.injEq] at h
          rw [← h.2.1]
          obtain ⟨ihf, ihc⟩ := ih r0 m1 rest' r' hrest
          refine ⟨?_, fun hg => ?_⟩
          · simp only [frameOKF, Bool.and_eq_true, decide_eq_true_eq]
            exact ⟨⟨trivial, frameOK_refl_all.1 v⟩, ihf⟩
          · obtain ⟨hgv, hgr⟩ := goodCovF_parts hg
            obtain ⟨ihc1, ihc2⟩ := ihc hgr
            constructor
            · simp only [covLEF, Bool.and_eq_true, decide_eq_true_eq]
              exact ⟨⟨trivial, covLE_refl_all.1 v⟩, ihc1⟩
            · simp only [goodCovF, Bool.and_eq_true]
              exact ⟨hgv, ihc2⟩
      | false =>
        rw [if_neg (by simp : ¬(false = true))] at h
        cases hF : F v r0 with
        | error e => rw [hF] at h; exact absurd h (by simp)
        | ok p2 =>
          obtain ⟨o, v', r1⟩ := p2
          rw [hF] at h
          simp only [ok_bind] at h
          cases hrest : fuzzFieldsGo F al2 ca2 pc rest r1 with
          | error e => rw [hrest] at h; exact absurd h (by simp)
          | ok q =>
            obtain ⟨m1, rest', r'⟩ := q
            rw [hrest] at h
            have hfs' : fs' = .fcons k v' rest' := by
              cases o <;> simp only [ok_bind, Except.ok.injEq, Prod.mk.injEq] at h <;>
                exact h.2.1.symm
            rw [hfs']
            obtain ⟨hvf, hvc⟩ := HF v r0 o v' r1 hF
            obtain ⟨ihf, ihc⟩ := ih r1 m1 rest' r' hrest
            refine ⟨?_, fun hg => ?_⟩
            · simp only [frameOKF, Bool.and_eq_true, decide_eq_true_eq]
              exact ⟨⟨trivial, hvf⟩, ihf⟩
            · obtain ⟨hgv, hgr⟩ := goodCovF_parts hg
              obtain ⟨hvc1, hvc2⟩ := hvc hgv
              obtain ⟨ihc1, ihc2⟩ := ihc hgr
              constructor
              · simp only [covLEF, Bool.and_eq_true, decide_eq_true_eq]
                exact ⟨⟨trivial, hvc1⟩, ihc1⟩
              · simp only [goodCovF, Bool.and_eq_true]
                exact ⟨hvc2, ihc2⟩

theorem elemsGo_master
    (F : Asn1Container → List Nat → Except String (Option Value × Asn1Container × List Nat))
    (HF : ∀ c rng v d r, F c rng = .ok (v, d, r) →
      frameOK c d = true ∧ (goodCov c = true → covLE c d = true ∧ goodCov d = true)) :
    ∀ (n : Nat) (ch : Asn1Container) (rng : List Nat) (vs : List (Option Value))
      (ch' : Asn1Container) (r : List Nat),
      fuzzElemsGo F ch n rng = .ok (vs, ch', r) →
      frameOK ch ch' = true ∧
      (goodCov ch = true → covLE ch ch' = true ∧ goodCov ch' = true) := by
  intro n
  induction n with
  | zero =>
    intro ch rng vs ch' r h
    simp only [fuzzElemsGo, Except.ok.injEq, Prod.mk.injEq] at h
    rw [← h.2.1]
    exact ⟨frameOK_refl_all.1 ch, fun hg => ⟨covLE_refl_all.1 ch, hg⟩⟩
  | succ n ihn =>
    intro ch rng vs ch' r h
    simp only [fuzzElemsGo] at h
    cases hF : F ch rng with
    | error e => rw [hF] at h; exact absurd h (by simp)
    | ok p =>
      obtain ⟨v, c1, r1⟩ := p
      rw [hF] at h
      simp only [ok_bind] at h
      cases hE : fuzzElemsGo F c1 n r1 with
      | error e => rw [hE] at h; exact absurd h (by simp)
      | ok q =>
        obtain ⟨vs1, c2, r2⟩ := q
        rw [hE] at h
        simp only [ok_bind, Except.ok.injEq, Prod.mk.injEq] at h
        rw [← h.2.1]
        obtain ⟨h1f, h1c⟩ := HF ch rng v c1 r1 hF
        obtain ⟨h2f, h2c⟩ := ihn c1 r1 vs1 c2 r2 hE
        refine ⟨frameOK_trans_all.1 ch c1 c2 h1f h2f, fun hg => ?_⟩
        obtain ⟨hc1, hg1⟩ := h1c hg
        obtain ⟨hc2, hg2⟩ := h2c hg1
        exact ⟨covLE_trans_all.1 ch c1 c2 hc1 hc2, hg2⟩

theorem frameOKN_map (f1 f2 : Fields) : frameOKN (.nmap f1) (.nmap f2) = frameOKF f1 f2 := rfl

theorem frameOKN_single (a b : Asn1Container) : frameOKN (.nsingle a) (.nsingle b) = frameOK a b := rfl

theorem covLEN_map (f1 f2 : Fields) : covLEN (.nmap f1) (.nmap f2) = covLEF f1 f2 := rfl

theorem covLEN_single (a b : Asn1Container) : covLEN (.nsingle a) (.nsingle b) = covLE a b := rfl

theorem goodCovN_map (fs : Fields) : goodCovN (.nmap fs) = goodCovF fs := rfl

theorem goodCovN_single (c : Asn1Container) : goodCovN (.nsingle c) = goodCov c := rfl

theorem frameOK_mk_range (u ty : String) (o : Bool) (rg rg' : Option RangeT) (cov cov' : Bool)
    (n1 n2 : Nested) (hn : frameOKN n1 n2 = true)
    (hr : rg' = rg ∨ (ty = "SEQUENCE OF" ∧ rangeBumped rg rg' = true)) :
    frameOK (.mk u ty o n1 rg cov) (.mk u ty o n2 rg' cov') = true := by
  simp only [frameOK, Bool.and_eq_true, Bool.or_eq_true, decide_eq_true_eq]
  refine ⟨⟨⟨⟨by trivial, by trivial⟩, by trivial⟩, hn⟩, ?_⟩
  rcases hr with hr | ⟨hty, hb⟩
  · exact Or.inl hr.symm
  · exact Or.inr ⟨hty, hb⟩

theorem covLE_mk (u1 t1 : String) (o1 : Bool) (rg1 : Option RangeT) (u2 t2 : String) (o2 : Bool)
    (rg2 : Option RangeT) (c1 c2 : Bool) (n1 n2 : Nested)
    (hf : c1 = true → c2 = true) (hn : covLEN n1 n2 = true) :
    covLE (.mk u1 t1 o1 n1 rg1 c1) (.mk u2 t2 o2 n2 rg2 c2) = true := by
  simp only [covLE, Bool.and_eq_true, Bool.or_eq_true, Bool.not_eq_true']
  refine ⟨?_, hn⟩
  cases c1
  · exact Or.inl rfl
  · exact Or.inr (hf rfl)

theorem coverUpdate_ENUMERATED (u : String) (opt : Bool) (nst : Nested) (rg : Option RangeT)
    (cov : Bool) :
    coverUpdate (.mk u "ENUMERATED" opt nst rg cov) = .ok (.mk u "ENUMERATED" opt nst rg true) := rfl

theorem coverUpdate_OCTET (u : String) (opt : Bool) (nst : Nested) (rg : Option RangeT)
    (cov : Bool) :
    coverUpdate (.mk u "OCTET STRING" opt nst rg cov) =
      .ok (.mk u "OCTET STRING" opt nst rg true) := rfl

theorem coverUpdate_BIT (u : String) (opt : Bool) (nst : Nested) (rg : Option RangeT)
    (cov : Bool) :
    coverUpdate (.mk u "BIT STRING" opt nst rg cov) =
      .ok (.mk u "BIT STRING" opt nst rg true) := rfl

theorem coverUpdate_IA5 (u : String) (opt : Bool) (nst : Nested) (rg : Option RangeT)
    (cov : Bool) :
    coverUpdate (.mk u "IA5String" opt nst rg cov) = .ok (.mk u "IA5String" opt nst rg true) := rfl

theorem coverUpdate_UTF8 (u : String) (opt : Bool) (nst : Nested) (rg : Option RangeT)
    (cov : Bool) :
    coverUpdate (.mk u "UTF8String" opt nst rg cov) =
      .ok (.mk u "UTF8String" opt nst rg true) := rfl

theorem coverUpdate_NUMERIC (u : String) (opt : Bool) (nst : Nested) (rg : Option RangeT)
    (cov : Bool) :
    coverUpdate (.mk u "NumericString" opt nst rg cov) =
      .ok (.mk u "NumericString" opt nst rg true) := rfl

/-- The master frame/coverage lemma for one `fuzz` step: a successful call
preserves everything but flags (and the SEQUENCE OF range bump), and, on a
coverage-sound tree, flags only grow and coverage-soundness is preserved. -/
theorem fuzz_master (al bl : Option (List String)) (ca : Bool) (msc : Int) :
    ∀ (f : Nat) (c : Asn1Container) (rng : List Nat) (v : Option Value) (d : Asn1Container)
      (r : List Nat),
      fuzzF al bl ca msc f c rng = .ok (v, d, r) →
      frameOK c d = true ∧ (goodCov c = true → covLE c d = true ∧ goodCov d = true) := by
  intro f
  induction f with
  | zero => intro c rng v d r h; exact absurd h (by simp [fuzzF])
  | succ f ih =>
    intro c rng v d r h
    obtain ⟨u, ty, o, nst, rg, cov⟩ := c
    by_cases hty1 : ty = "INTEGER"
    · subst hty1
      simp only [fuzzF] at h
      cases hg : fuzzInteger rg rng with
      | error e => rw [hg] at h; exact absurd h (by simp)
      | ok p =>
        obtain ⟨vi, r'⟩ := p
        rw [hg] at h
        simp only [ok_bind, coverUpdate_INTEGER, Except.ok.injEq, Prod.mk.injEq] at h
        rw [← h.2.1]
        exact step_flag_true u "INTEGER" o nst rg cov rfl
    by_cases hty2 : ty = "ENUMERATED"
    · subst hty2
      simp only [fuzzF] at h
      cases hg : fuzzEnumerated nst rng with
      | error e => rw [hg] at h; exact absurd h (by simp)
      | ok p =>
        obtain ⟨vs, r'⟩ := p
        rw [hg] at h
        simp only [ok_bind, coverUpdate_ENUMERATED, Except.ok.injEq, Prod.mk.injEq] at h
        rw [← h.2.1]
        exact step_flag_true u "ENUMERATED" o nst rg cov rfl
    by_cases hty3 : ty = "BOOLEAN"
    · subst hty3
      simp only [fuzzF, pychoice, ok_bind, coverUpdate_BOOLEAN, Except.ok.injEq,
        Prod.mk.injEq] at h
      rw [← h.2.1]
      exact step_flag_true u "BOOLEAN" o nst rg cov rfl
    by_cases hty4 : ty = "OCTET STRING"
    · subst hty4
      simp only [fuzzF] at h
      cases hg : fuzzOctet rg rng with
      | error e => rw [hg] at h; exact absurd h (by simp)
      | ok p =>
        obtain ⟨bs, r'⟩ := p
        rw [hg] at h
        simp only [ok_bind, coverUpdate_OCTET, Except.ok.injEq, Prod.mk.injEq] at h
        rw [← h.2.1]
        exact step_flag_true u "OCTET STRING" o nst rg cov rfl
    by_cases hty5 : ty = "BIT STRING"
    · subst hty5
      simp only [fuzzF] at h
      cases hg : fuzzBitString nst rg rng with
      | error e => rw [hg] at h; exact absurd h (by simp)
      | ok p =>
        obtain ⟨bv, r'⟩ := p
        rw [hg] at h
        simp only [ok_bind, coverUpdate_BIT, Except.ok.injEq, Prod.mk.injEq] at h
        rw [← h.2.1]
        exact step_flag_true u "BIT STRING" o nst rg cov rfl
    by_cases hty6 : ty = "IA5String"
    · subst hty6
      simp only [fuzzF] at h
      cases hg : fuzzIA5 rg rng with
      | error e => rw [hg] at h; exact absurd h (by simp)
      | ok p =>
        obtain ⟨sv, r'⟩ := p
        rw [hg] at h
        simp only [ok_bind, coverUpdate_IA5, Except.ok.injEq, Prod.mk.injEq] at h
        rw [← h.2.1]
        exact step_flag_true u "IA5String" o nst rg cov rfl
    by_cases hty7 : ty = "UTF8String"
    · subst hty7
      simp only [fuzzF] at h
      cases hg : fuzzIA5 rg rng with
      | error e => rw [hg] at h; exact absurd h (by simp)
      | ok p =>
        obtain ⟨sv, r'⟩ := p
        rw [hg] at h
        simp only [ok_bind, coverUpdate_UTF8, Except.ok.injEq, Prod.mk.injEq] at h
        rw [← h.2.1]
        exact step_flag_true u "UTF8String" o nst rg cov rfl
    by_cases hty8 : ty = "NumericString"
    · subst hty8
      simp only [fuzzF] at h
      cases hg : fuzzNumeric rg rng with
      | error e => rw [hg] at h; exact absurd h (by simp)
      | ok p =>
        obtain ⟨sv, r'⟩ := p
        rw [hg] at h
        simp only [ok_bind, coverUpdate_NUMERIC, Except.ok.injEq, Prod.mk.injEq] at h
        rw [← h.2.1]
        exact step_flag_true u "NumericString" o nst rg cov rfl
    by_cases hty9 : ty = "NULL"
    · subst hty9
      simp only [fuzzF, ok_bind, coverUpdate_NULL, Except.ok.injEq, Prod.mk.injEq] at h
      rw [← h.2.1]
      exact step_flag_true u "NULL" o nst rg cov rfl
    by_cases hty10 : ty = "EXPANDABLE"
    · subst hty10
      simp only [fuzzF] at h
      exact absurd h (by simp)
    by_cases hty11 : ty = "SEQUENCE"
    · subst hty11
      simp only [fuzzF] at h
      cases nst with
      | nmap fs =>
        dsimp only at h
        cases hfg : fuzzFieldsGo (fuzzF al bl ca msc f) al ca cov fs rng with
        | error e => rw [hfg] at h; exact absurd h (by simp)
        | ok q =>
          obtain ⟨m, fs', r'⟩ := q
          rw [hfg] at h
          simp only [ok_bind, coverUpdate_SEQUENCE, Except.ok.injEq, Prod.mk.injEq] at h
          rw [← h.2.1]
          obtain ⟨hFf, hFc⟩ := fieldsGo_master (fuzzF al bl ca msc f) al ca cov
            (fun c2 rng2 v2 d2 r2 hh => ih c2 rng2 v2 d2 r2 hh) fs rng m fs' r' hfg
          refine ⟨frameOK_mk_same u "SEQUENCE" o rg cov fs'.allCovered _ _
            (by rw [frameOKN_map]; exact hFf), fun hgc => ?_⟩
          obtain ⟨hflag, hgn⟩ := goodCov_parts hgc
          rw [goodCovN_map] at hgn
          obtain ⟨hcle, hgf'⟩ := hFc hgn
          constructor
          · refine covLE_mk u "SEQUENCE" o rg u "SEQUENCE" o rg cov fs'.allCovered _ _
              (fun hc => ?_) (by rw [covLEN_map]; exact hcle)
            exact allCovered_mono fs fs' hcle (hflag hc)
          · refine goodCov_mk u "SEQUENCE" o (.nmap fs') rg fs'.allCovered
              (fun hc => hc) (by rw [goodCovN_map]; exact hgf')
      | nnone => exact absurd h (by simp)
      | nsingle c2 => exact absurd h (by simp)
      | nlabels ls => exact absurd h (by simp)
      | nfactory fid => exact absurd h (by simp)
    by_cases htyC : ty = "CHOICE" ∨ ty = "OPEN_TYPE" ∨ ty = "ANY"
    · have harm := htyC
      rcases htyC with htyC | htyC | htyC <;> subst htyC <;>
        simp only [fuzzF] at h <;>
      · cases nst with
        | nmap fs =>
          dsimp only at h
          cases al with
          | some alist =>
            dsimp only at h
            cases hfa : fs.firstAllowed alist with
            | none =>
              rw [hfa] at h
              simp only [ok_bind] at h
              rw [coverUpdate_choiceLike _ _ _ _ _ _ (by simp_all)] at h
              simp only [ok_bind, Except.ok.injEq, Prod.mk.injEq] at h
              rw [← h.2.1]
              refine ⟨frameOK_mk_same _ _ _ _ _ _ _ _
                (by rw [frameOKN_map]; exact frameOK_refl_all.2.2 fs), fun hgc => ?_⟩
              obtain ⟨hflag, hgn⟩ := goodCov_parts hgc
              rw [goodCovN_map] at hgn
              constructor
              · refine covLE_mk _ _ _ _ _ _ _ _ cov fs.allCovered _ _
                  (fun hc => hflag hc) (by rw [covLEN_map]; exact covLE_refl_all.2.2 fs)
              · exact goodCov_mk _ _ _ (.nmap fs) _ fs.allCovered (fun hc => hc)
                  (by rw [goodCovN_map]; exact hgn)
            | some p =>
              obtain ⟨i, k0, v0⟩ := p
              rw [hfa] at h
              simp only [ok_bind] at h
              cases hcf : fuzzF (some alist) bl ca msc f v0 rng with
              | error e =>
                rw [hcf] at h
                exact absurd h (by simp)
              | ok q =>
                obtain ⟨x, v0', r'⟩ := q
                rw [hcf] at h
                simp only [ok_bind] at h
                rw [coverUpdate_choiceLike _ _ _ _ _ _ (by simp_all)] at h
                simp only [ok_bind, Except.ok.injEq, Prod.mk.injEq] at h
                rw [← h.2.1]
                obtain ⟨hvf, hvc⟩ := ih v0 rng x v0' r' hcf
                obtain ⟨hupf, hupc, hupg, hupgu⟩ :=
                  firstAllowed_updateAt_rel fs alist i k0 v0 hfa v0'
                refine ⟨frameOK_mk_same _ _ _ _ _ _ _ _
                  (by rw [frameOKN_map]; exact hupf hvf), fun hgc => ?_⟩
                obtain ⟨hflag, hgn⟩ := goodCov_parts hgc
                rw [goodCovN_map] at hgn
                obtain ⟨hvc1, hvc2⟩ := hvc (hupg hgn)
                constructor
                · refine covLE_mk _ _ _ _ _ _ _ _ cov _ _ _
                    (fun hc => allCovered_mono fs _ (hupc hvc1) (hflag hc))
                    (by rw [covLEN_map]; exact hupc hvc1)
                · exact goodCov_mk _ _ _ (.nmap (fs.updateAt i v0')) _ _
                    (fun hc => hc) (by rw [goodCovN_map]; exact hupgu hgn hvc2)
          | none =>
            dsimp only at h
            cases hcs : choiceSelect (if ca then
                (if fs.filterUncovered.length > 0 then fs.filterUncovered else fs)
                else fs).keys rng with
            | error e =>
              rw [hcs] at h
              exact absurd h (by simp)
            | ok p =>
              obtain ⟨sk, r0⟩ := p
              rw [hcs] at h
              simp only [ok_bind] at h
              cases hlk : fs.lookup sk with
              | none =>
                rw [hlk] at h
                exact absurd h (by simp)
              | some value =>
                rw [hlk] at h
                simp only [ok_bind] at h
                cases hcf : fuzzF none bl ca msc f value r0 with
                | error e =>
                  rw [hcf] at h
                  exact absurd h (by simp)
                | ok q =>
                  obtain ⟨x, value', r'⟩ := q
                  rw [hcf] at h
                  simp only [ok_bind] at h
                  rw [coverUpdate_choiceLike _ _ _ _ _ _ (by simp_all)] at h
                  simp only [ok_bind, Except.ok.injEq, Prod.mk.injEq] at h
                  rw [← h.2.1]
                  obtain ⟨hvf, hvc⟩ := ih value r0 x value' r' hcf
                  obtain ⟨hupf, hupc, hupg, hupgu⟩ := lookup_updateKey_rel fs sk value hlk value'
                  refine ⟨frameOK_mk_same _ _ _ _ _ _ _ _
                    (by rw [frameOKN_map]; exact hupf hvf), fun hgc => ?_⟩
                  obtain ⟨hflag, hgn⟩ := goodCov_parts hgc
                  rw [goodCovN_map] at hgn
                  obtain ⟨hvc1, hvc2⟩ := hvc (hupg hgn)
                  constructor
                  · refine covLE_mk _ _ _ _ _ _ _ _ cov _ _ _
                      (fun hc => allCovered_mono fs _ (hupc hvc1) (hflag hc))
                      (by rw [covLEN_map]; exact hupc hvc1)
                  · exact goodCov_mk _ _ _ (.nmap (fs.updateKey sk value')) _ _
                      (fun hc => hc) (by rw [goodCovN_map]; exact hupgu hgn hvc2)
        | nnone => exact absurd h (by simp)
        | nsingle c2 => exact absurd h (by simp)
        | nlabels ls => exact absurd h (by simp)
        | nfactory fid => exact absurd h (by simp)
    push_neg at htyC
    obtain ⟨hty12, hty13, hty14⟩ := htyC
    by_cases hty15 : ty = "SEQUENCE OF"
    · subst hty15
      simp only [fuzzF] at h
      cases hsc : seqOfCount rg cov msc rng with
      | error e => rw [hsc] at h; exact absurd h (by simp)
      | ok p =>
        obtain ⟨count, rg', r0⟩ := p
        rw [hsc] at h
        simp only [ok_bind] at h
        cases nst with
        | nsingle ch =>
          dsimp only at h
          cases hel : fuzzElemsGo (fuzzF al bl ca msc f) ch count.toNat r0 with
          | error e => rw [hel] at h; exact absurd h (by simp)
          | ok q =>
            obtain ⟨vs, ch', r'⟩ := q
            rw [hel] at h
            simp only [ok_bind, coverUpdate_SEQOF, Except.ok.injEq, Prod.mk.injEq] at h
            rw [← h.2.1]
            obtain ⟨hEf, hEc⟩ := elemsGo_master (fuzzF al bl ca msc f)
              (fun c2 rng2 v2 d2 r2 hh => ih c2 rng2 v2 d2 r2 hh) count.toNat ch r0 vs ch' r' hel
            refine ⟨frameOK_mk_range u "SEQUENCE OF" o rg rg' cov ch'.fully_covered _ _
              (by rw [frameOKN_single]; exact hEf) ?_, fun hgc => ?_⟩
            · rcases seqOfCount_range hsc with hr | hr
              · exact Or.inl hr
              · exact Or.inr ⟨rfl, hr⟩
            · obtain ⟨hflag, hgn⟩ := goodCov_parts hgc
              rw [goodCovN_single] at hgn
              obtain ⟨hc1, hg1⟩ := hEc hgn
              constructor
              · refine covLE_mk _ _ _ _ _ _ _ _ cov _ _ _
                  (fun hc => covLE_flag hc1 (hflag hc)) (by rw [covLEN_single]; exact hc1)
              · exact goodCov_mk _ _ _ (.nsingle ch') _ ch'.fully_covered
                  (fun hc => hc) (by rw [goodCovN_single]; exact hg1)
        | nnone => exact absurd h (by simp)
        | nmap fs => exact absurd h (by simp)
        | nlabels ls => exact absurd h (by simp)
        | nfactory fid => exact absurd h (by simp)
    · rw [fuzzF.eq_24 al bl ca msc rng f u ty o nst rg cov hty1 hty2 hty3 hty4 hty5 hty6 hty7
        hty8 hty9 hty10 hty11 hty12 hty13 hty14 hty15] at h
      rw [coverUpdate_other u ty o nst rg cov hty15 hty12 hty13 hty14 hty11] at h
      simp only [ok_bind, Except.ok.injEq, Prod.mk.injEq] at h
      rw [← h.2.1]
      exact step_flag_true u ty o nst rg cov
        (childFlagsOK_other ty nst hty15 hty12 hty13 hty14 hty11)

/-- C4 (amended): a successful `fuzz` call mutates only the `fully_covered`
flags of the tree's nodes and, for a SEQUENCE OF node, possibly rewrites an
open-ended range `(0, None, step)` to `(1, None, step)`; the identity, kind,
optionality, child structure and (apart from that bump) range of every node are
preserved, as expressed by the recursive frame relation `frameOK`. -/
theorem C4_fuzz_frame (al bl : Option (List String)) (ca : Bool) (msc : Int)
    (c : Asn1Container) (rng : List Nat) (v : Option Value) (d : Asn1Container) (r : List Nat)
    (h : fuzz c al bl ca msc rng = .ok (v, d, r)) : frameOK c d = true := by
  simp only [fuzz] at h
  exact (fuzz_master al bl ca msc (depth c) c rng v d r h).1

/-- Witness for C4: fuzzing the concrete INTEGER node succeeds and the result
tree is frame-equal to the input (only the flag changed). -/
theorem C4_witness :
    frameOK intNode (.mk "i" "INTEGER" false .nnone (some (3, some 10, none)) true) = true :=
  C4_fuzz_frame none none false 1 intNode [5] (some (.vint 8))
    (.mk "i" "INTEGER" false .nnone (some (3, some 10, none)) true) [] (by rfl)

/-- C6: coverage is monotone across generation. On a coverage-sound tree
(`goodCov`: every node marked covered has all its children covered — true of
freshly built trees, all flags false, and preserved by every call), a
successful `fuzz` call never turns any node's `fully_covered` flag from true
to false (`covLE`), and the result is again coverage-sound, so the property
chains over every subsequent call as long as `reset_coverage` is not
invoked. -/
theorem C6_coverage_monotone (al bl : Option (List String)) (ca : Bool) (msc : Int)
    (c : Asn1Container) (rng : List Nat) (v : Option Value) (d : Asn1Container) (r : List Nat)
    (hg : goodCov c = true)
    (h : fuzz c al bl ca msc rng = .ok (v, d, r)) :
    covLE c d = true ∧ goodCov d = true := by
  simp only [fuzz] at h
  exact (fuzz_master al bl ca msc (depth c) c rng v d r h).2 hg

/-- Witness for C6: the concrete BOOLEAN node is coverage-sound, a fuzz call
on it succeeds, flags only grow, and the result is coverage-sound again. -/
theorem C6_witness :
    covLE boolNode (.mk "b" "BOOLEAN" false .nnone none true) = true ∧
      goodCov (.mk "b" "BOOLEAN" false .nnone none true) = true :=
  C6_coverage_monotone none none false 1 boolNode [0] (some (.vbool true))
    (.mk "b" "BOOLEAN" false .nnone none true) [] (by rfl) (by rfl)

end Asn1Fuzz
